import Mathlib

/-!
Verification development for the vibe-trading repository.

Part (I) embeds the order-handler lambda
(`src/backend/lambda/order-handler/index.ts`) as pure state-passing
functions over a list-modelled DynamoDB table.

Part (II) embeds `calculateRSI` from
(`src/backend/lambda/technical-analysis/index.ts`) over rationals.

Part (III) models the strategy execution engine of the specification
(graph validation, Kahn ordering, node executors with branch pruning,
retry policy); the engine itself is not present in the repository's
source tree, only described by its documentation, so those definitions
are modelled from the specification text and are marked as such.
-/

namespace OrderHandler

/-- The `Order` interface of `order-handler/index.ts` (lines 7-16). -/
inductive Side
  | buy
  | sell
deriving DecidableEq, Repr

inductive OrderStatus
  | pending
  | filled
  | cancelled
deriving DecidableEq, Repr

inductive Exchange
  | hose
  | hnx
  | upcom
deriving DecidableEq, Repr

structure Order where
  orderId : String
  symbol : String
  type : Side
  quantity : ℚ
  price : ℚ
  status : OrderStatus
  timestamp : Nat
  exchange : Exchange
deriving DecidableEq, Repr

/-- The DynamoDB orders table, modelled as a list of items.  The table's
primary key is the pair `(orderId, timestamp)` (a `PutCommand` replaces an
item with the same key, queries by `orderId` return the first match). -/
abbrev OrderStore := List Order

/-- `PutCommand`: replace the item with the same `(orderId, timestamp)`
key if present, otherwise append the new item. -/
def putItem (store : OrderStore) (o : Order) : OrderStore :=
  if store.any (fun x => x.orderId = o.orderId ∧ x.timestamp = o.timestamp) then
    store.map (fun x =>
      if x.orderId = o.orderId ∧ x.timestamp = o.timestamp then o else x)
  else
    store ++ [o]

/-- `QueryCommand` with `KeyConditionExpression 'orderId = :orderId'` and
`Limit 1`: the first stored item with the given `orderId`. -/
def queryFirst (store : OrderStore) (id : String) : Option Order :=
  store.find? (fun o => o.orderId = id)

/-- Request body of `createOrder` (`Partial<Order>`): every field may be
absent. -/
structure CreateReq where
  symbol : Option String
  type : Option Side
  quantity : Option ℚ
  price : Option ℚ
  exchange : Option Exchange
deriving DecidableEq, Repr

/-- JavaScript falsiness of an optional string (`undefined` or `""`). -/
def falsyS (o : Option String) : Bool := decide (o.getD "" = "")

/-- JavaScript falsiness of an optional number (`undefined` or `0`). -/
def falsyQ (o : Option ℚ) : Bool := decide (o.getD 0 = 0)

/-- The guard `!symbol || !type || !quantity || !price` of `createOrder`
(line 64), negated. -/
def reqOk (r : CreateReq) : Bool :=
  !(falsyS r.symbol || r.type.isNone || falsyQ r.quantity || falsyQ r.price)

/-- Responses are modelled as a status code paired with a body. -/
inductive Body
  | error (msg : String)
  | orderB (o : Order)
  | updated (orderId : String)
  | deleted (orderId : String)
deriving DecidableEq, Repr

abbrev Resp := Nat × Body

/-- The order record built by `createOrder` (lines 72-81). -/
def mkOrder (uuid : String) (now : Nat) (r : CreateReq) : Order :=
  { orderId := uuid
    symbol := (r.symbol.getD "").toUpper
    type := r.type.getD .buy
    quantity := r.quantity.getD 0
    price := r.price.getD 0
    status := .pending
    timestamp := now
    exchange := r.exchange.getD .hose }

/-- `createOrder` (lines 61-93).  `uuid` stands for the value returned by
`randomUUID()` during this invocation and `now` for `Date.now()`. -/
def createOrder (store : OrderStore) (uuid : String) (now : Nat)
    (r : CreateReq) : Resp × OrderStore :=
  if reqOk r then
    ((201, .orderB (mkOrder uuid now r)), putItem store (mkOrder uuid now r))
  else
    ((400, .error "Missing required fields: symbol, type, quantity, price"), store)

/-- `getOrder` (lines 95-120). -/
def getOrder (store : OrderStore) (id : String) : Resp × OrderStore :=
  match queryFirst store id with
  | none => ((404, .error "Order not found"), store)
  | some o => ((200, .orderB o), store)

/-- Request body of `updateOrder`.  The handler filters the request's keys
against `allowedUpdates = ['status', 'quantity', 'price']`; the remaining
fields model disallowed keys that the filter drops. -/
structure UpdateReq where
  status : Option OrderStatus
  quantity : Option ℚ
  price : Option ℚ
  symbol : Option String
  type : Option Side
  exchange : Option Exchange
deriving DecidableEq, Repr

/-- Whether the request supplies at least one allowed key
(`updateExpressions.length > 0`). -/
def hasAllowedUpdates (u : UpdateReq) : Bool :=
  u.status.isSome || u.quantity.isSome || u.price.isSome

/-- The `UpdateCommand`'s `SET` expression applied to a stored item: only
the allowed attributes are written. -/
def applyAllowed (u : UpdateReq) (o : Order) : Order :=
  { o with
    status := u.status.getD o.status
    quantity := u.quantity.getD o.quantity
    price := u.price.getD o.price }

/-- `updateOrder` (lines 140-198). -/
def updateOrder (store : OrderStore) (id : String) (u : UpdateReq) :
    Resp × OrderStore :=
  if hasAllowedUpdates u then
    match queryFirst store id with
    | none => ((404, .error "Order not found"), store)
    | some o =>
        ((200, .updated id),
         store.map (fun x =>
           if x.orderId = id ∧ x.timestamp = o.timestamp then applyAllowed u x
           else x))
  else
    ((400, .error "No valid updates provided"), store)

/-- `deleteOrder` (lines 200-234). -/
def deleteOrder (store : OrderStore) (id : String) : Resp × OrderStore :=
  match queryFirst store id with
  | none => ((404, .error "Order not found"), store)
  | some o =>
      ((200, .deleted id),
       store.filter (fun x => ¬(x.orderId = id ∧ x.timestamp = o.timestamp)))

/-- A default item used with `List.getD`. -/
def dummyOrder : Order :=
  { orderId := ""
    symbol := ""
    type := .buy
    quantity := 0
    price := 0
    status := .pending
    timestamp := 0
    exchange := .hose }

end OrderHandler

namespace TechnicalAnalysis

/-- The gains/losses accumulation loop of `calculateRSI`
(`technical-analysis/index.ts`, lines 124-131): for each `i < period`,
`change = prices[i] - prices[i+1]`; positive changes add to gains,
the rest add their absolute value to losses. -/
def rsiStep (prices : List ℚ) (gl : ℚ × ℚ) (i : Nat) : ℚ × ℚ :=
  let change := prices.getD i 0 - prices.getD (i + 1) 0
  if 0 < change then (gl.1 + change, gl.2) else (gl.1, gl.2 + |change|)

def rsiGainsLosses (prices : List ℚ) (period : Nat) : ℚ × ℚ :=
  (List.range period).foldl (rsiStep prices) (0, 0)

/-- `calculateRSI` (lines 121-142), over exact rationals. -/
def calculateRSI (prices : List ℚ) (period : Nat := 14) : ℚ :=
  if prices.length < period + 1 then 50
  else
    let gl := rsiGainsLosses prices period
    let avgGain := gl.1 / (period : ℚ)
    let avgLoss := gl.2 / (period : ℚ)
    if avgLoss = 0 then 100
    else
      let rs := avgGain / avgLoss
      100 - 100 / (1 + rs)

end TechnicalAnalysis

namespace Retry

/-- Error taxonomy of an external call (spec section 7): `transient`
(timeouts, 5xx-equivalent) versus `permanent` (invalid order
parameters). -/
inductive CallErr
  | transient
  | permanent
deriving DecidableEq, Repr

/-- Modelled from the spec: the retry loop for external calls is part of
the Scheduler/Runner, which is absent from the repository's source tree.
Spec section 7: "Transient errors ... are retried up to 3 times ...
before being escalated to a run failure; Permanent errors ... fail the
run immediately with no retry."  `f k` is the result of the `k`-th
attempt; the function returns the final result together with the total
number of attempts made. -/
def retryExternal {α : Type} (f : Nat → Except CallErr α) :
    Nat → Nat → Except CallErr α × Nat
  | k, 0 => (f k, 1)
  | k, b + 1 =>
    match f k with
    | .ok v => (.ok v, 1)
    | .error .permanent => (.error .permanent, 1)
    | .error .transient =>
      let r := retryExternal f (k + 1) b
      (r.1, r.2 + 1)

/-- Modelled from the spec: an external call with the spec's retry budget
of 3 retries. -/
def callWithRetry {α : Type} (f : Nat → Except CallErr α) :
    Except CallErr α × Nat :=
  retryExternal f 0 3

end Retry

namespace Engine

/-!
Modelled from the spec: the strategy execution engine (Graph Model,
Execution Planner, Node Executors, Execution Context, run loop) is
described in the specification (sections 3, 4) and in the repository's
architecture documents (`services/workflow_engine.py`), but its code is
not part of the source tree.  All definitions in this namespace follow
the specification's words.
-/

/-- A JSON-like configuration value. -/
inductive ConfigVal
  | str (s : String)
  | num (q : ℚ)
deriving DecidableEq, Repr

/-- The closed set of node types (spec section 3). -/
inductive NodeType
  | trigger
  | data
  | logic
  | action
deriving DecidableEq, Repr

/-- A workflow node: id unique within its graph, type, and a typed
configuration record (modelled as a key/value list, as produced by the
graph-authoring surface). -/
structure Node where
  id : String
  type : NodeType
  config : List (String × ConfigVal)
deriving DecidableEq, Repr

/-- `WorkflowGraph` (spec section 3): arena-style node/edge storage. -/
structure WorkflowGraph where
  id : String
  nodes : List Node
  edges : List (String × String)
  isActive : Bool
deriving DecidableEq, Repr

def nodeIds (g : WorkflowGraph) : List String := g.nodes.map (·.id)

/-- `GraphError` (spec sections 4.1, 7).  The spec's check (a) — every
edge references existing node ids — precedes the named errors but has no
name in the taxonomy; it is modelled as `edgeRefMissing`. -/
inductive GraphError
  | edgeRefMissing (e : String × String)
  | cycleDetected (e : String × String)
  | orphanNode (id : String)
  | invalidNodeConfig (id field : String)
deriving DecidableEq, Repr

def lookupCfg (c : List (String × ConfigVal)) (k : String) : Option ConfigVal :=
  (c.find? (fun p => p.1 = k)).map (·.2)

def isStrVal : Option ConfigVal → Bool
  | some (.str _) => true
  | _ => false

def isNumVal : Option ConfigVal → Bool
  | some (.num _) => true
  | _ => false

def opNames : List String := ["lt", "lte", "gt", "gte", "eq", "neq"]

/-- Per-type required-field schema (spec section 4.3): Trigger holds a
schedule expression; Data holds `{symbol, metric, period}`; Logic holds
`{operator, threshold}`; Action holds `{actionType, volume, orderKind}`.
Returns the name of a missing/invalid field, or `none` when the config
satisfies the schema. -/
def requiredOk (n : Node) : Option String :=
  match n.type with
  | .trigger => if isStrVal (lookupCfg n.config "schedule") then none else some "schedule"
  | .data =>
    if !isStrVal (lookupCfg n.config "symbol") then some "symbol"
    else if !isStrVal (lookupCfg n.config "metric") then some "metric"
    else if !isNumVal (lookupCfg n.config "period") then some "period"
    else none
  | .logic =>
    match lookupCfg n.config "operator" with
    | some (.str o) =>
      if o ∈ opNames then
        if isNumVal (lookupCfg n.config "threshold") then none else some "threshold"
      else some "operator"
    | _ => some "operator"
  | .action =>
    match lookupCfg n.config "actionType" with
    | some (.str a) =>
      if a = "buy" ∨ a = "sell" then
        if !isNumVal (lookupCfg n.config "volume") then some "volume"
        else if !isStrVal (lookupCfg n.config "orderKind") then some "orderKind"
        else none
      else some "actionType"
    | _ => some "actionType"

/-- A node of `R` with no incoming edge from a source still in `R`. -/
def noIncoming (E : List (String × String)) (R : List String) (v : String) : Bool :=
  E.all (fun e => !(decide (e.2 = v ∧ e.1 ∈ R)))

/-- Lexicographically smallest element of a list of ids (the spec's
deterministic tie-break). -/
def minId? : List String → Option String
  | [] => none
  | x :: xs =>
    match minId? xs with
    | none => some x
    | some m => some (if x < m then x else m)

/-- One selection step of Kahn's algorithm: the lexicographically
smallest id among the in-degree-zero nodes of the remaining set. -/
def pick (E : List (String × String)) (R : List String) : Option String :=
  minId? (R.filter (noIncoming E R))

/-- Fuelled Kahn's algorithm (spec section 4.2): repeatedly select the
lexicographically-smallest-id node with in-degree zero and remove it.
Returns the produced ordering together with the remaining (stuck) set;
the remainder is nonempty exactly when the edge relation has a cycle. -/
def kahnF (E : List (String × String)) : Nat → List String → List String × List String
  | 0, R => ([], R)
  | fuel + 1, R =>
    match pick E R with
    | none => ([], R)
    | some m =>
      let p := kahnF E fuel (R.erase m)
      (m :: p.1, p.2)

/-- The Execution Planner's `order` (spec section 4.2). -/
def order (g : WorkflowGraph) : List String :=
  (kahnF g.edges (nodeIds g).length (nodeIds g)).1

/-- The set of node ids Kahn's peeling cannot remove. -/
def leftover (g : WorkflowGraph) : List String :=
  (kahnF g.edges (nodeIds g).length (nodeIds g)).2

/-- `validate` (spec section 4.1): checks, in order, (a) every edge
references existing node ids, (b) no cycles (`cycleDetected` naming one
offending edge), (c) every non-Trigger node has at least one incoming
edge (`orphanNode`), (d) every node's config satisfies its type's
required-field schema (`invalidNodeConfig`).  Pure function over the
input graph. -/
def validate (g : WorkflowGraph) : Except GraphError Unit :=
  match g.edges.find? (fun e => !(decide (e.1 ∈ nodeIds g ∧ e.2 ∈ nodeIds g))) with
  | some e => .error (.edgeRefMissing e)
  | none =>
    match leftover g with
    | v :: _ =>
      .error (.cycleDetected
        ((g.edges.find? (fun e => decide (e.2 ∈ leftover g ∧ e.1 ∈ leftover g))).getD (v, v)))
    | [] =>
      match g.nodes.find? (fun n =>
          !(decide (n.type = .trigger)) && !(g.edges.any (fun e => decide (e.2 = n.id)))) with
      | some n => .error (.orphanNode n.id)
      | none =>
        match (g.nodes.filterMap (fun n => (requiredOk n).map (fun f => (n.id, f)))).head? with
        | some (i, f) => .error (.invalidNodeConfig i f)
        | none => .ok ()

/-- A directed walk: `ChainE E a p b` says the edges of `E` lead from `a`
through the successive nodes of `p` to `b` (at least one edge). -/
def ChainE (E : List (String × String)) : String → List String → String → Prop
  | a, [], b => (a, b) ∈ E
  | a, c :: p, b => (a, c) ∈ E ∧ ChainE E c p b

/-- The graph contains a cycle: a closed walk through its node ids. -/
def HasCycle (g : WorkflowGraph) : Prop :=
  ∃ n p, n ∈ nodeIds g ∧ (∀ x ∈ p, x ∈ nodeIds g) ∧ ChainE g.edges n p n

/-- Values propagated between nodes. -/
inductive Value
  | num (q : ℚ)
  | bool (b : Bool)
  | str (s : String)
deriving DecidableEq, Repr

/-- Node-level failures (spec section 7). -/
inductive ExecError
  | dataUnavailable
  | orderRejected
  | invalidUpstream
  | badConfig
deriving DecidableEq, Repr

/-- `NodeOutcome` (spec section 4.3). -/
inductive Outcome
  | produced (v : Value)
  | skipped
  | failed (e : ExecError)
deriving DecidableEq, Repr

/-- Logic operators (spec section 4.3). -/
inductive Op
  | lt
  | lte
  | gt
  | gte
  | eq
  | neq
deriving DecidableEq, Repr

def parseOp : String → Option Op
  | "lt" => some .lt
  | "lte" => some .lte
  | "gt" => some .gt
  | "gte" => some .gte
  | "eq" => some .eq
  | "neq" => some .neq
  | _ => none

def evalOp : Op → ℚ → ℚ → Bool
  | .lt, v, t => decide (v < t)
  | .lte, v, t => decide (v ≤ t)
  | .gt, v, t => decide (t < v)
  | .gte, v, t => decide (t ≤ v)
  | .eq, v, t => decide (v = t)
  | .neq, v, t => decide (v ≠ t)

/-- An order-placement request built from an Action node's config. -/
structure OrderReq where
  side : String
  volume : ℚ
  orderKind : String
deriving DecidableEq, Repr

/-- The external collaborators (spec section 6), as oracles: a
market-data fetch (already wrapped in its retry policy; an error is
`DataUnavailable`) and the broker's order placement keyed by the
idempotency key `runId:nodeId`. -/
structure Collab where
  fetchMetric : String → String → ℚ → Except Unit ℚ
  placeOrder : String → OrderReq → Except Unit String

/-- `ExecutionContext` (spec section 3) plus the trace of external order
calls (each recorded with the id of the Action node that made it). -/
structure Ctx where
  values : String → Option Value
  branchAlive : String → Bool
  results : String → Option Outcome
  calls : List (String × OrderReq)

def initCtx : Ctx :=
  { values := fun _ => none
    branchAlive := fun _ => true
    results := fun _ => none
    calls := [] }

/-- Pointwise update of a string-keyed map. -/
def upd {α : Type} (f : String → α) (k : String) (v : α) : String → α :=
  fun s => if s = k then v else f s

def upstreamIds (g : WorkflowGraph) (n : Node) : List String :=
  (g.edges.filter (fun e => e.2 = n.id)).map (·.1)

def getStrCfg (n : Node) (k : String) : Option String :=
  match lookupCfg n.config k with
  | some (.str s) => some s
  | _ => none

def getNumCfg (n : Node) (k : String) : Option ℚ :=
  match lookupCfg n.config k with
  | some (.num q) => some q
  | _ => none

/-- Number of external order calls recorded for a node id. -/
def countCalls (ctx : Ctx) (id : String) : Nat :=
  (ctx.calls.filter (fun c => c.1 = id)).length

/-- Result of one executor step: either the run continues with an updated
context, or the node failed and the run terminates (the failure outcome
is already recorded in the returned context). -/
inductive StepRes
  | ok (c : Ctx)
  | fail (c : Ctx) (msg : String)

def StepRes.ctx : StepRes → Ctx
  | .ok c => c
  | .fail c _ => c

/-- The order-placement step of an Action node whose upstream boolean is
alive and `true`: the external call is recorded in the trace, and the
produced order identifier (or the placement failure) is written into the
context. -/
def placeStep (ctx : Ctx) (n : Node) (req : OrderReq) (res : Except Unit String) : StepRes :=
  let ctx' := { ctx with calls := ctx.calls ++ [(n.id, req)] }
  match res with
  | .ok oid =>
    .ok { ctx' with
          values := upd ctx'.values n.id (some (.str oid))
          results := upd ctx'.results n.id (some (.produced (.str oid))) }
  | .error _ =>
    .fail { ctx' with results := upd ctx'.results n.id (some (.failed .orderRejected)) }
      (n.id ++ ": OrderPlacementError")

/-- The common executor contract (spec section 4.3).  Before the
type-specific evaluator runs, `branchAlive` of all upstream dependencies
is checked: the node short-circuits to `Skipped` (and propagates the dead
flag) if any upstream branch is dead.  Trigger produces the run-start
timestamp; Data fetches from the market-data collaborator and fails the
run with `DataUnavailable` if the (already retried) fetch fails; Logic
compares its single upstream value with its threshold, produces the
boolean and marks its own branch dead on `false`; Action reads its
upstream boolean and, when it is alive and `true`, places an order with
idempotency key `runId:nodeId` — when the upstream boolean is `false` it
is `Skipped` with no external call. -/
def execNode (col : Collab) (runId : String) (now : ℚ) (g : WorkflowGraph)
    (ctx : Ctx) (n : Node) : StepRes :=
  let ups := upstreamIds g n
  if ups.any (fun u => !ctx.branchAlive u) then
    .ok { ctx with
          results := upd ctx.results n.id (some .skipped)
          branchAlive := upd ctx.branchAlive n.id false }
  else
    match n.type with
    | .trigger =>
      .ok { ctx with
            values := upd ctx.values n.id (some (.num now))
            results := upd ctx.results n.id (some (.produced (.num now))) }
    | .data =>
      match getStrCfg n "symbol", getStrCfg n "metric", getNumCfg n "period" with
      | some s, some m, some p =>
        match col.fetchMetric s m p with
        | .ok v =>
          .ok { ctx with
                values := upd ctx.values n.id (some (.num v))
                results := upd ctx.results n.id (some (.produced (.num v))) }
        | .error _ =>
          .fail { ctx with results := upd ctx.results n.id (some (.failed .dataUnavailable)) }
            (n.id ++ ": DataUnavailable")
      | _, _, _ =>
        .fail { ctx with results := upd ctx.results n.id (some (.failed .badConfig)) }
          (n.id ++ ": InvalidNodeConfig")
    | .logic =>
      match (getStrCfg n "operator").bind parseOp, getNumCfg n "threshold",
            ups.head?.bind ctx.values with
      | some op, some th, some (.num q) =>
        let b := evalOp op q th
        .ok { ctx with
              values := upd ctx.values n.id (some (.bool b))
              results := upd ctx.results n.id (some (.produced (.bool b)))
              branchAlive := if b then ctx.branchAlive else upd ctx.branchAlive n.id false }
      | _, _, _ =>
        .fail { ctx with results := upd ctx.results n.id (some (.failed .invalidUpstream)) }
          (n.id ++ ": InvalidUpstream")
    | .action =>
      match ups.head?.bind ctx.values with
      | some (.bool true) =>
        match getStrCfg n "actionType", getNumCfg n "volume", getStrCfg n "orderKind" with
        | some a, some v, some k =>
          let req : OrderReq := { side := a, volume := v, orderKind := k }
          placeStep ctx n req (col.placeOrder (runId ++ ":" ++ n.id) req)
        | _, _, _ =>
          .fail { ctx with results := upd ctx.results n.id (some (.failed .badConfig)) }
            (n.id ++ ": InvalidNodeConfig")
      | some (.bool false) =>
        .ok { ctx with
              results := upd ctx.results n.id (some .skipped)
              branchAlive := upd ctx.branchAlive n.id false }
      | _ =>
        .fail { ctx with results := upd ctx.results n.id (some (.failed .invalidUpstream)) }
          (n.id ++ ": InvalidUpstream")

/-- Terminal run status (spec section 3); `Pending`/`Running` are
transient states of the stateful runner and do not appear in the returned
value of the sequential run function. -/
inductive RunStatus
  | success
  | failed
deriving DecidableEq, Repr

structure RunOut where
  ctx : Ctx
  status : RunStatus
  errorMessage : Option String

/-- Strictly sequential execution in planner order (spec section 5); the
run transitions to `Failed` the instant any node fails, and to `Success`
once every node in the planned order has reached `Produced` or
`Skipped`. -/
def runNodes (col : Collab) (runId : String) (now : ℚ) (g : WorkflowGraph) :
    List Node → Ctx → RunOut
  | [], ctx => ⟨ctx, .success, none⟩
  | n :: rest, ctx =>
    match execNode col runId now g ctx n with
    | .ok ctx' => runNodes col runId now g rest ctx'
    | .fail ctx' msg => ⟨ctx', .failed, some msg⟩

/-- The planned order as a list of nodes. -/
def planned (g : WorkflowGraph) : List Node :=
  (order g).filterMap (fun i => g.nodes.find? (fun n => n.id = i))

/-- One complete run of a validated graph. -/
def runWorkflow (col : Collab) (runId : String) (now : ℚ) (g : WorkflowGraph) : RunOut :=
  runNodes col runId now g (planned g) initCtx

/-- The distilled, persisted form of a terminal run (spec sections 3,
4.4): the full `nodeResults` map is produced in a single finalize step
from the final context. -/
structure ExecutionRun where
  runId : String
  workflowId : String
  status : RunStatus
  nodeResults : List (String × Outcome)
  errorMessage : Option String
deriving Repr

def finalizeRun (runId : String) (g : WorkflowGraph) (out : RunOut) : ExecutionRun :=
  { runId := runId
    workflowId := g.id
    status := out.status
    nodeResults := (nodeIds g).filterMap (fun i => (out.ctx.results i).map (fun o => (i, o)))
    errorMessage := out.errorMessage }

/-- `u` occurs strictly before `v` in `l`. -/
def Precedes (l : List String) (u v : String) : Prop :=
  ∃ i j, ∃ hi : i < l.length, ∃ hj : j < l.length,
    i < j ∧ l.get ⟨i, hi⟩ = u ∧ l.get ⟨j, hj⟩ = v

/-- A nonempty set of ids each of which has an `E`-predecessor inside the
set; such a set can never be drained by Kahn peeling. -/
def BlockedIn (E : List (String × String)) (C : List String) : Prop :=
  C ≠ [] ∧ ∀ v ∈ C, ∃ u ∈ C, (u, v) ∈ E

/-- The suffix property of a topologically sorted node list: whenever the
list splits as `l₁ ++ n :: l₂`, no upstream dependency of `n` occurs at
`n` or later. -/
def TopoSuffix (g : WorkflowGraph) (L : List Node) : Prop :=
  ∀ l₁ n l₂, L = l₁ ++ n :: l₂ →
    ∀ u ∈ upstreamIds g n, u ∉ (n :: l₂).map Node.id

/-- The intermediate nodes of the walk
`F^[m+1] y -> F^[m] y -> ... -> F y -> y`, used to extract an explicit
cycle from an iterated predecessor function. -/
def midList (F : String → String) (y : String) : Nat → List String
  | 0 => []
  | m + 1 => F^[m + 1] y :: midList F y m

end Engine

namespace Examples

open OrderHandler TechnicalAnalysis Retry Engine

/-- A well-formed create request. -/
def req0 : CreateReq :=
  { symbol := some "VNM", type := some .buy, quantity := some 100,
    price := some 50, exchange := none }

/-- A create request missing the required `price` field. -/
def reqBad : CreateReq :=
  { symbol := some "VNM", type := some .buy, quantity := some 100,
    price := none, exchange := none }

/-- A stored order used by the update/delete examples. -/
def ord0 : Order :=
  { orderId := "o1", symbol := "VNM", type := .buy, quantity := 100,
    price := 50, status := .pending, timestamp := 7, exchange := .hose }

def updReq0 : UpdateReq :=
  { status := some .filled, quantity := none, price := some 51,
    symbol := some "HPG", type := none, exchange := none }

def updReqEmpty : UpdateReq :=
  { status := none, quantity := none, price := none,
    symbol := some "HPG", type := none, exchange := none }

/-- The specification's section-8 example graph
`Trigger -> Data(RSI) -> Logic(lt, 30) -> Action(buy, 100)`. -/
def nodeT : Node := ⟨"T", .trigger, [("schedule", .str "manual")]⟩

def nodeD : Node :=
  ⟨"D", .data, [("symbol", .str "HPG"), ("metric", .str "RSI"), ("period", .num 14)]⟩

def nodeL : Node :=
  ⟨"L", .logic, [("operator", .str "lt"), ("threshold", .num 30)]⟩

def nodeA : Node :=
  ⟨"A", .action,
   [("actionType", .str "buy"), ("volume", .num 100), ("orderKind", .str "market")]⟩

def gMain : WorkflowGraph :=
  ⟨"wf1", [nodeT, nodeD, nodeL, nodeA], [("T", "D"), ("D", "L"), ("L", "A")], true⟩

/-- A market-data collaborator that always yields `v`, and a broker that
accepts every order. -/
def colOf (v : ℚ) : Collab :=
  { fetchMetric := fun _ _ _ => .ok v
    placeOrder := fun _ _ => .ok "ORD-1" }

/-- A market-data collaborator whose fetch fails (after its retry
budget). -/
def colFail : Collab :=
  { fetchMetric := fun _ _ _ => .error ()
    placeOrder := fun _ _ => .ok "ORD-1" }

/-- A graph with a cycle `A -> B -> A` and an additional edge to the
missing node id `C`. -/
def gCyc : WorkflowGraph :=
  ⟨"wf2",
   [⟨"A", .trigger, [("schedule", .str "manual")]⟩,
    ⟨"B", .data, [("symbol", .str "HPG"), ("metric", .str "RSI"), ("period", .num 14)]⟩],
   [("A", "B"), ("B", "A"), ("A", "C")], true⟩

/-- An external call that always fails transiently. -/
def allTransient : Nat → Except CallErr Unit := fun _ => .error .transient

/-- An external call that fails permanently at once. -/
def permanentAtOnce : Nat → Except CallErr Unit := fun _ => .error .permanent

end Examples

namespace Examples

/-- Fifteen strictly decreasing prices (newest first): no price decrease
over the first fourteen steps. -/
def desc15 : List ℚ := [15, 14, 13, 12, 11, 10, 9, 8, 7, 6, 5, 4, 3, 2, 1]

end Examples

open OrderHandler TechnicalAnalysis Retry Engine Examples

/-! ## Helper lemmas -/

theorem putItem_append (store : OrderStore) (x : Order)
    (h : ∀ o ∈ store, o.orderId ≠ x.orderId) : putItem store x = store ++ [x] := by
  unfold putItem
  rw [if_neg]
  simp only [List.any_eq_true, decide_eq_true_eq, not_exists, not_and]
  intro o ho he
  exact absurd he (h o ho)

theorem rsi_foldl_losses (prices : List ℚ) :
    ∀ (l : List Nat) (acc : ℚ × ℚ),
      (∀ i ∈ l, prices.getD (i + 1) 0 ≤ prices.getD i 0) →
      (l.foldl (rsiStep prices) acc).2 = acc.2 := by
  intro l
  induction l with
  | nil => intro acc _; rfl
  | cons i t ih =>
    intro acc h
    have hi : prices.getD (i + 1) 0 ≤ prices.getD i 0 := h i (by simp)
    have ht : ∀ j ∈ t, prices.getD (j + 1) 0 ≤ prices.getD j 0 :=
      fun j hj => h j (by simp [hj])
    simp only [List.foldl_cons]
    rw [ih _ ht]
    show (rsiStep prices acc i).2 = acc.2
    unfold rsiStep
    simp only []
    split
    · rfl
    · next hcond =>
      have hz : prices.getD i 0 - prices.getD (i + 1) 0 = 0 :=
        le_antisymm (not_lt.mp hcond) (by linarith)
      rw [List.getD_eq_getElem?_getD, List.getD_eq_getElem?_getD] at hz
      simp [hz]

theorem retry_attempts_le {α : Type} (f : Nat → Except CallErr α) :
    ∀ (budget k : Nat), (retryExternal f k budget).2 ≤ budget + 1 := by
  intro budget
  induction budget with
  | zero => intro k; simp [retryExternal]
  | succ b ih =>
    intro k
    cases hf : f k with
    | ok v => simp [retryExternal, hf]
    | error e =>
      cases e with
      | permanent => simp [retryExternal, hf]
      | transient =>
        have hk := ih (k + 1)
        simp only [retryExternal, hf]
        omega

theorem retry_all_transient {α : Type} (f : Nat → Except CallErr α)
    (h : ∀ k, f k = .error .transient) :
    ∀ (budget k : Nat), retryExternal f k budget = (.error .transient, budget + 1) := by
  intro budget
  induction budget with
  | zero => intro k; simp [retryExternal, h k]
  | succ b ih =>
    intro k
    simp only [retryExternal, h k, ih (k + 1)]

/-! ## Claims about the order handler, the retry policy and the RSI -/

/-- C1 counterexample: `createOrder` supports no idempotency key — a
retried call (same request body, fresh `randomUUID`) records a second
order.  Starting from the empty store, two identical valid requests leave
two orders in the store, not one. -/
theorem claim_C1_counterexample :
    (createOrder [] "u1" 0 req0).1.1 = 201
  ∧ (createOrder ((createOrder [] "u1" 0 req0).2) "u2" 0 req0).1.1 = 201
  ∧ (createOrder ((createOrder [] "u1" 0 req0).2) "u2" 0 req0).2.length = 2
  ∧ (createOrder ((createOrder [] "u1" 0 req0).2) "u2" 0 req0).2.length ≠ 1 := by
  refine ⟨rfl, rfl, rfl, by decide⟩

/-- C1 (amended): `createOrder` assigns a fresh random `orderId` to every
request and performs no idempotency-key deduplication, so invoking it
twice with the same request data (a retried call) records two orders: for
every store that does not already contain the two fresh UUIDs, two
successful calls grow the store by exactly two orders. -/
theorem claim_C1 :
    ∀ (store : OrderStore) (u₁ u₂ : String) (t₁ t₂ : Nat) (r : CreateReq),
      reqOk r = true →
      (∀ o ∈ store, o.orderId ≠ u₁) →
      (∀ o ∈ store, o.orderId ≠ u₂) →
      u₁ ≠ u₂ →
      (createOrder store u₁ t₁ r).1.1 = 201
      ∧ (createOrder (createOrder store u₁ t₁ r).2 u₂ t₂ r).1.1 = 201
      ∧ (createOrder (createOrder store u₁ t₁ r).2 u₂ t₂ r).2.length = store.length + 2 := by
  intro store u₁ u₂ t₁ t₂ r hok h₁ h₂ hne
  unfold createOrder
  rw [if_pos hok]
  have h₁' : ∀ o ∈ store, o.orderId ≠ (mkOrder u₁ t₁ r).orderId := h₁
  rw [putItem_append _ _ h₁']
  rw [if_pos hok]
  refine ⟨rfl, rfl, ?_⟩
  have h₂' : ∀ o ∈ store ++ [mkOrder u₁ t₁ r], o.orderId ≠ (mkOrder u₂ t₂ r).orderId := by
    intro o ho
    rcases List.mem_append.mp ho with h | h
    · exact h₂ o h
    · simp only [List.mem_singleton] at h
      subst h
      exact hne
  rw [putItem_append _ _ h₂']
  simp [List.length_append]

/-- C1 witness for the amended theorem. -/
theorem claim_C1_witness :
    reqOk req0 = true
  ∧ (createOrder (createOrder [] "u1" 5 req0).2 "u2" 6 req0).2.length = List.length ([] : OrderHandler.OrderStore) + 2 :=
  ⟨by decide,
   (claim_C1 [] "u1" "u2" 5 6 req0 (by decide) (by intro o ho; cases ho)
      (by intro o ho; cases ho) (by decide)).2.2⟩

/-- C6: external-call retry policy.  The transient retry loop belongs to
the engine's Scheduler/Runner, which is absent from the source tree, and
is modelled from the spec (namespace `Retry`): a transient error is
retried at most 3 times (at most 4 attempts) before being escalated to a
failure, and a permanent error fails immediately after a single attempt.
The permanent-error case for order placement (invalid order parameters)
is decided by the real `createOrder` code: a request with a missing
required field is rejected with status 400 and no order is recorded. -/
theorem claim_C6 :
    (∀ (α : Type) (f : Nat → Except CallErr α), (callWithRetry f).2 ≤ 4)
  ∧ (∀ (α : Type) (f : Nat → Except CallErr α),
      (∀ k, f k = .error .transient) → callWithRetry f = (.error .transient, 4))
  ∧ (∀ (α : Type) (f : Nat → Except CallErr α),
      f 0 = .error .permanent → callWithRetry f = (.error .permanent, 1))
  ∧ (∀ (store : OrderStore) (uuid : String) (now : Nat) (r : CreateReq),
      reqOk r = false →
      (createOrder store uuid now r).1.1 = 400 ∧ (createOrder store uuid now r).2 = store) := by
  refine ⟨?_, ?_, ?_, ?_⟩
  · intro α f
    exact retry_attempts_le f 3 0
  · intro α f h
    exact retry_all_transient f h 3 0
  · intro α f h
    unfold callWithRetry
    simp [retryExternal, h]
  · intro store uuid now r hbad
    unfold createOrder
    rw [if_neg (by rw [hbad]; exact Bool.false_ne_true)]
    exact ⟨rfl, rfl⟩

/-- C6 witness: an always-transient call is escalated after 4 attempts;
an immediately-permanent call makes exactly 1 attempt; a create request
missing its `price` is rejected with 400 and the store is unchanged. -/
theorem claim_C6_witness :
    callWithRetry allTransient = (.error .transient, 4)
  ∧ callWithRetry permanentAtOnce = (.error .permanent, 1)
  ∧ (createOrder [ord0] "u9" 3 reqBad).1.1 = 400
  ∧ (createOrder [ord0] "u9" 3 reqBad).2 = [ord0] :=
  ⟨claim_C6.2.1 Unit allTransient (fun _ => rfl),
   claim_C6.2.2.1 Unit permanentAtOnce rfl,
   (claim_C6.2.2.2 [ord0] "u9" 3 reqBad (by decide)).1,
   (claim_C6.2.2.2 [ord0] "u9" 3 reqBad (by decide)).2⟩

/-- C8: RSI degenerate inputs.  With fewer than `period + 1` prices
`calculateRSI` returns exactly 50; with enough prices and no price
decrease over the first `period` steps (so the average loss is zero) it
returns exactly 100. -/
theorem claim_C8 :
    ∀ (prices : List ℚ) (period : Nat),
      (prices.length < period + 1 → calculateRSI prices period = 50)
    ∧ (period + 1 ≤ prices.length →
        (∀ i, i < period → prices.getD (i + 1) 0 ≤ prices.getD i 0) →
        calculateRSI prices period = 100) := by
  intro prices period
  constructor
  · intro h
    unfold calculateRSI
    rw [if_pos h]
  · intro hlen hmono
    have hnl : ¬ prices.length < period + 1 := by omega
    have hz : (rsiGainsLosses prices period).2 = 0 := by
      unfold rsiGainsLosses
      exact rsi_foldl_losses prices (List.range period) (0, 0)
        (fun i hi => hmono i (List.mem_range.mp hi))
    unfold calculateRSI
    rw [if_neg hnl]
    simp only [hz, zero_div, if_pos]

/-- C8 witness: three prices give RSI 50; fifteen weakly decreasing
prices (newest first) give RSI 100. -/
theorem claim_C8_witness :
    calculateRSI [1, 2, 3] 14 = 50 ∧ calculateRSI desc15 14 = 100 :=
  ⟨(claim_C8 [1, 2, 3] 14).1 (by decide),
   (claim_C8 desc15 14).2 (by decide) (by decide)⟩

/-- C9: update frame.  `updateOrder` never changes the store's length,
never changes `orderId`, `symbol`, `type`, `timestamp` or `exchange` of
any stored order (only `status`, `quantity`, `price` can change), and a
request carrying none of the three allowed keys is rejected with 400
leaving the store unchanged. -/
theorem claim_C9 :
    ∀ (store : OrderStore) (id : String) (u : UpdateReq),
      (updateOrder store id u).2.length = store.length
    ∧ (∀ i, i < store.length →
        ((updateOrder store id u).2.getD i dummyOrder).orderId = (store.getD i dummyOrder).orderId
        ∧ ((updateOrder store id u).2.getD i dummyOrder).symbol = (store.getD i dummyOrder).symbol
        ∧ ((updateOrder store id u).2.getD i dummyOrder).type = (store.getD i dummyOrder).type
        ∧ ((updateOrder store id u).2.getD i dummyOrder).timestamp = (store.getD i dummyOrder).timestamp
        ∧ ((updateOrder store id u).2.getD i dummyOrder).exchange = (store.getD i dummyOrder).exchange)
    ∧ (u.status = none → u.quantity = none → u.price = none →
        (updateOrder store id u).1.1 = 400 ∧ (updateOrder store id u).2 = store) := by
  intro store id u
  have hcases : (updateOrder store id u).2 = store
      ∨ ∃ o : Order, (updateOrder store id u).2 = store.map (fun x =>
          if x.orderId = id ∧ x.timestamp = o.timestamp then applyAllowed u x else x) := by
    unfold updateOrder
    by_cases hall : hasAllowedUpdates u
    · rw [if_pos hall]
      cases hq : queryFirst store id with
      | none => exact .inl rfl
      | some o => exact .inr ⟨o, rfl⟩
    · rw [if_neg hall]
      exact .inl rfl
  refine ⟨?_, ?_, ?_⟩
  · rcases hcases with h | ⟨o, h⟩ <;> simp [h]
  · intro i hi
    rcases hcases with h | ⟨o, h⟩
    · rw [h]
      exact ⟨rfl, rfl, rfl, rfl, rfl⟩
    · rw [h]
      have hi' : i < (store.map (fun x =>
          if x.orderId = id ∧ x.timestamp = o.timestamp then applyAllowed u x else x)).length := by
        simpa using hi
      rw [List.getD_eq_getElem?_getD, List.getD_eq_getElem?_getD,
          List.getElem?_eq_getElem hi', List.getElem?_eq_getElem hi]
      simp only [Option.getD_some, List.getElem_map]
      split
      · exact ⟨rfl, rfl, rfl, rfl, rfl⟩
      · exact ⟨rfl, rfl, rfl, rfl, rfl⟩
  · intro h1 h2 h3
    have hall : hasAllowedUpdates u = false := by
      simp [hasAllowedUpdates, h1, h2, h3]
    unfold updateOrder
    rw [if_neg (by rw [hall]; exact Bool.false_ne_true)]
    exact ⟨rfl, rfl⟩

/-- C9 witness: updating a one-order store keeps its identity fields; an
update with no allowed keys is a 400 no-op. -/
theorem claim_C9_witness :
    (updateOrder [ord0] "o1" updReq0).2.length = List.length [ord0]
  ∧ ((updateOrder [ord0] "o1" updReq0).2.getD 0 dummyOrder).symbol
      = (([ord0] : OrderStore).getD 0 dummyOrder).symbol
  ∧ (updateOrder [ord0] "o1" updReqEmpty).1.1 = 400
  ∧ (updateOrder [ord0] "o1" updReqEmpty).2 = [ord0] :=
  ⟨(claim_C9 [ord0] "o1" updReq0).1,
   ((claim_C9 [ord0] "o1" updReq0).2.1 0 (by decide)).2.1,
   ((claim_C9 [ord0] "o1" updReqEmpty).2.2 rfl rfl rfl).1,
   ((claim_C9 [ord0] "o1" updReqEmpty).2.2 rfl rfl rfl).2⟩

/-- C10: not-found atomicity.  For an `orderId` absent from the store,
`getOrder`, `updateOrder` (with a request that carries at least one
allowed key, so that it reaches the lookup) and `deleteOrder` each return
404 "Order not found" and leave the store unchanged. -/
theorem claim_C10 :
    ∀ (store : OrderStore) (id : String) (u : UpdateReq),
      queryFirst store id = none →
      hasAllowedUpdates u = true →
      getOrder store id = ((404, .error "Order not found"), store)
    ∧ updateOrder store id u = ((404, .error "Order not found"), store)
    ∧ deleteOrder store id = ((404, .error "Order not found"), store) := by
  intro store id u hq hall
  refine ⟨?_, ?_, ?_⟩
  · unfold getOrder
    rw [hq]
  · unfold updateOrder
    rw [if_pos hall, hq]
  · unfold deleteOrder
    rw [hq]

/-- C10 witness at a store that does not contain the looked-up id. -/
theorem claim_C10_witness :
    queryFirst [ord0] "nope" = none
  ∧ getOrder [ord0] "nope" = ((404, .error "Order not found"), [ord0]) :=
  ⟨by decide, (claim_C10 [ord0] "nope" updReq0 (by decide) (by decide)).1⟩

/-! ## Kahn's algorithm: unfolding equations and basic facts -/

namespace Engine

theorem kahnF_zero (E : List (String × String)) (R : List String) :
    kahnF E 0 R = ([], R) := rfl

theorem kahnF_succ_none {E : List (String × String)} {R : List String} {f : Nat}
    (hp : pick E R = none) : kahnF E (f + 1) R = ([], R) := by
  simp [kahnF, hp]

theorem kahnF_succ_some {E : List (String × String)} {R : List String} {f : Nat} {m : String}
    (hp : pick E R = some m) :
    kahnF E (f + 1) R = (m :: (kahnF E f (R.erase m)).1, (kahnF E f (R.erase m)).2) := by
  simp [kahnF, hp]

theorem minId?_mem : ∀ {l : List String} {m : String}, minId? l = some m → m ∈ l := by
  intro l
  induction l with
  | nil => intro m h; cases h
  | cons x xs ih =>
    intro m h
    unfold minId? at h
    cases hx : minId? xs with
    | none =>
      rw [hx] at h
      injection h with h
      subst h
      exact List.mem_cons_self _ _
    | some m' =>
      rw [hx] at h
      injection h with h
      subst h
      split
      · exact List.mem_cons_self _ _
      · exact List.mem_cons_of_mem _ (ih hx)

theorem pick_mem {E : List (String × String)} {R : List String} {m : String}
    (h : pick E R = some m) : m ∈ R :=
  (List.mem_filter.mp (minId?_mem h)).1

theorem pick_noIncoming {E : List (String × String)} {R : List String} {m : String}
    (h : pick E R = some m) : noIncoming E R m = true :=
  (List.mem_filter.mp (minId?_mem h)).2

theorem noIncoming_spec {E : List (String × String)} {R : List String} {v : String}
    (h : noIncoming E R v = true) : ∀ u, (u, v) ∈ E → u ∉ R := by
  intro u hu hR
  unfold noIncoming at h
  rw [List.all_eq_true] at h
  have h2 := h (u, v) hu
  simp at h2
  exact h2 hR

theorem stuck_blocked {E : List (String × String)} {R : List String}
    (h : pick E R = none) (hne : R ≠ []) : BlockedIn E R := by
  refine ⟨hne, ?_⟩
  intro v hv
  have hfilter : R.filter (noIncoming E R) = [] := by
    cases hf : R.filter (noIncoming E R) with
    | nil => rfl
    | cons a l =>
      unfold pick at h
      rw [hf] at h
      unfold minId? at h
      cases hx : minId? l <;> rw [hx] at h <;> cases h
  have hni : noIncoming E R v = false := by
    cases hb : noIncoming E R v with
    | false => rfl
    | true =>
      have : v ∈ R.filter (noIncoming E R) := List.mem_filter.mpr ⟨hv, hb⟩
      rw [hfilter] at this
      cases this
  unfold noIncoming at hni
  rw [List.all_eq_false] at hni
  obtain ⟨e, he, hpe⟩ := hni
  simp only [Bool.not_eq_eq_eq_not, Bool.not_true, decide_eq_false_iff_not, not_not] at hpe
  obtain ⟨h2, h1⟩ := hpe
  obtain ⟨e1, e2⟩ := e
  dsimp only at h1 h2
  subst h2
  exact ⟨e1, h1, he⟩

theorem kahnF_perm (E : List (String × String)) :
    ∀ (fuel : Nat) (R : List String),
      ((kahnF E fuel R).1 ++ (kahnF E fuel R).2).Perm R := by
  intro fuel
  induction fuel with
  | zero => intro R; simp [kahnF_zero]
  | succ f ih =>
    intro R
    cases hp : pick E R with
    | none => simp [kahnF_succ_none hp]
    | some m =>
      have hm := pick_mem hp
      rw [kahnF_succ_some hp]
      simp only [List.cons_append]
      exact ((ih (R.erase m)).cons m).trans (List.perm_cons_erase hm).symm

theorem kahnF_rem_stuck (E : List (String × String)) :
    ∀ (fuel : Nat) (R : List String), R.length ≤ fuel →
      (kahnF E fuel R).2 ≠ [] → pick E (kahnF E fuel R).2 = none := by
  intro fuel
  induction fuel with
  | zero =>
    intro R hR hne
    have hnil : R = [] := List.length_eq_zero.mp (Nat.le_zero.mp hR)
    subst hnil
    simp [kahnF_zero] at hne
  | succ f ih =>
    intro R hR hne
    cases hp : pick E R with
    | none =>
      rw [kahnF_succ_none hp]
      exact hp
    | some m =>
      have hm := pick_mem hp
      have hlen : (R.erase m).length ≤ f := by
        rw [List.length_erase_of_mem hm]
        omega
      rw [kahnF_succ_some hp] at hne ⊢
      exact ih (R.erase m) hlen hne

theorem kahnF_blocked_avoid (E : List (String × String)) :
    ∀ (fuel : Nat) (R C : List String), (∀ x ∈ C, x ∈ R) → BlockedIn E C →
      ∀ x ∈ C, x ∉ (kahnF E fuel R).1 := by
  intro fuel
  induction fuel with
  | zero => intro R C _ _ x _ hx; rw [kahnF_zero] at hx; cases hx
  | succ f ih =>
    intro R C hsub hB x hx
    cases hp : pick E R with
    | none => rw [kahnF_succ_none hp]; intro hmem; cases hmem
    | some m =>
      have hm : m ∉ C := by
        intro hmC
        obtain ⟨u, huC, hedge⟩ := hB.2 m hmC
        exact noIncoming_spec (pick_noIncoming hp) u hedge (hsub u huC)
      have hsub' : ∀ y ∈ C, y ∈ R.erase m := by
        intro y hy
        refine (List.mem_erase_of_ne ?_).mpr (hsub y hy)
        intro he
        rw [he] at hy
        exact hm hy
      rw [kahnF_succ_some hp]
      intro hmem
      rcases List.mem_cons.mp hmem with h | h
      · exact hm (h ▸ hx)
      · exact ih (R.erase m) C hsub' hB x hx h

theorem kahnF_out_nodup (E : List (String × String)) (fuel : Nat) (R : List String)
    (hnd : R.Nodup) : (kahnF E fuel R).1.Nodup :=
  (((kahnF_perm E fuel R).nodup_iff).mpr hnd).of_append_left

theorem precedes_head {l : List String} {a v : String} (h : v ∈ l) :
    Precedes (a :: l) a v := by
  obtain ⟨⟨j, hj⟩, hg⟩ := List.mem_iff_get.mp h
  exact ⟨0, j + 1, Nat.succ_pos _, Nat.succ_lt_succ hj, Nat.succ_pos _, rfl,
    by rw [List.get_cons_succ]; exact hg⟩

theorem precedes_cons {l : List String} {a u v : String} (h : Precedes l u v) :
    Precedes (a :: l) u v := by
  obtain ⟨i, j, hi, hj, hij, hgi, hgj⟩ := h
  exact ⟨i + 1, j + 1, Nat.succ_lt_succ hi, Nat.succ_lt_succ hj, Nat.succ_lt_succ hij,
    by rw [List.get_cons_succ]; exact hgi,
    by rw [List.get_cons_succ]; exact hgj⟩

theorem precedes_mem_left {l : List String} {u v : String} (h : Precedes l u v) : u ∈ l := by
  obtain ⟨i, _, hi, _, _, hgi, _⟩ := h
  exact hgi ▸ List.get_mem l i hi

theorem precedes_mem_right {l : List String} {u v : String} (h : Precedes l u v) : v ∈ l := by
  obtain ⟨_, j, _, hj, _, _, hgj⟩ := h
  exact hgj ▸ List.get_mem l j hj

theorem precedes_asymm {l : List String} (hnd : l.Nodup) {u v : String}
    (h1 : Precedes l u v) (h2 : Precedes l v u) : False := by
  obtain ⟨i, j, hi, hj, hij, hgi, hgj⟩ := h1
  obtain ⟨i', j', hi', hj', hij', hgi', hgj'⟩ := h2
  have hinj := List.nodup_iff_injective_get.mp hnd
  have e1 : (⟨i, hi⟩ : Fin l.length) = ⟨j', hj'⟩ := hinj (by rw [hgi, hgj'])
  have e2 : (⟨j, hj⟩ : Fin l.length) = ⟨i', hi'⟩ := hinj (by rw [hgj, hgi'])
  have v1 : i = j' := congrArg Fin.val e1
  have v2 : j = i' := congrArg Fin.val e2
  omega

theorem precedes_irrefl {l : List String} (hnd : l.Nodup) {u : String}
    (h : Precedes l u u) : False := by
  obtain ⟨i, j, hi, hj, hij, hgi, hgj⟩ := h
  have hinj := List.nodup_iff_injective_get.mp hnd
  have e1 : (⟨i, hi⟩ : Fin l.length) = ⟨j, hj⟩ := hinj (by rw [hgi, hgj])
  have v1 : i = j := congrArg Fin.val e1
  omega

theorem split_mem_precedes :
    ∀ (l₁ : List String) {l₂ : List String} {n u : String},
      u ∈ l₂ → Precedes (l₁ ++ n :: l₂) n u := by
  intro l₁
  induction l₁ with
  | nil => intro l₂ n u h; exact precedes_head h
  | cons a t ih => intro l₂ n u h; exact precedes_cons (ih h)

theorem kahnF_precedes (E : List (String × String)) :
    ∀ (fuel : Nat) (R : List String), R.Nodup → ∀ u v, (u, v) ∈ E →
      u ∈ (kahnF E fuel R).1 → v ∈ (kahnF E fuel R).1 →
      Precedes (kahnF E fuel R).1 u v := by
  intro fuel
  induction fuel with
  | zero => intro R _ u v _ hu _; rw [kahnF_zero] at hu; cases hu
  | succ f ih =>
    intro R hnd u v hedge hu hv
    cases hp : pick E R with
    | none => rw [kahnF_succ_none hp] at hu; cases hu
    | some m =>
      rw [kahnF_succ_some hp] at hu hv ⊢
      have hsub' : ∀ x ∈ (kahnF E f (R.erase m)).1, x ∈ R := by
        intro x hx
        exact List.erase_subset _ _
          ((kahnF_perm E f (R.erase m)).subset (List.mem_append_left _ hx))
      by_cases hvm : v = m
      · subst hvm
        have huR : u ∈ R := by
          rcases List.mem_cons.mp hu with h | h
          · exact h ▸ pick_mem hp
          · exact hsub' u h
        exact absurd huR (noIncoming_spec (pick_noIncoming hp) u hedge)
      · have hv' : v ∈ (kahnF E f (R.erase m)).1 := by
          rcases List.mem_cons.mp hv with h | h
          · exact absurd h hvm
          · exact h
        rcases List.mem_cons.mp hu with hum | hu'
        · subst hum
          exact precedes_head hv'
        · exact precedes_cons (ih (R.erase m) (hnd.erase m) u v hedge hu' hv')

end Engine

/-! ## Cycles versus blocked sets -/

namespace Engine

theorem chainE_pred_in (E : List (String × String)) :
    ∀ (p : List String) (a b : String), ChainE E a p b →
      ∀ v ∈ p, ∃ u ∈ a :: p, (u, v) ∈ E := by
  intro p
  induction p with
  | nil => intro a b _ v hv; cases hv
  | cons c q ih =>
    intro a b hch v hv
    obtain ⟨hac, hcq⟩ := hch
    rcases List.mem_cons.mp hv with h | h
    · subst h
      exact ⟨a, List.mem_cons_self _ _, hac⟩
    · obtain ⟨u, hu, hedge⟩ := ih c b hcq v h
      refine ⟨u, ?_, hedge⟩
      rcases List.mem_cons.mp hu with h' | h'
      · subst h'
        exact List.mem_cons_of_mem _ (List.mem_cons_self _ _)
      · exact List.mem_cons_of_mem _ (List.mem_cons_of_mem _ h')

theorem chainE_last_edge (E : List (String × String)) :
    ∀ (p : List String) (a b : String), ChainE E a p b →
      ∃ u ∈ a :: p, (u, b) ∈ E := by
  intro p
  induction p with
  | nil => intro a b h; exact ⟨a, List.mem_cons_self _ _, h⟩
  | cons c q ih =>
    intro a b hch
    obtain ⟨hac, hcq⟩ := hch
    obtain ⟨u, hu, hedge⟩ := ih c b hcq
    refine ⟨u, ?_, hedge⟩
    rcases List.mem_cons.mp hu with h' | h'
    · subst h'
      exact List.mem_cons_of_mem _ (List.mem_cons_self _ _)
    · exact List.mem_cons_of_mem _ (List.mem_cons_of_mem _ h')

theorem hasCycle_blocked {g : WorkflowGraph} (h : HasCycle g) :
    ∃ C, (∀ x ∈ C, x ∈ nodeIds g) ∧ BlockedIn g.edges C := by
  obtain ⟨n, p, hn, hp, hch⟩ := h
  refine ⟨n :: p, ?_, List.cons_ne_nil n p, ?_⟩
  · intro x hx
    rcases List.mem_cons.mp hx with h' | h'
    · exact h' ▸ hn
    · exact hp x h'
  · intro v hv
    rcases List.mem_cons.mp hv with h' | h'
    · subst h'
      exact chainE_last_edge g.edges p v v hch
    · exact chainE_pred_in g.edges p n n hch v h'

theorem blocked_hasCycle {E : List (String × String)} {C : List String}
    (hB : BlockedIn E C) :
    ∃ y p, y ∈ C ∧ (∀ x ∈ p, x ∈ C) ∧ ChainE E y p y := by
  classical
  obtain ⟨hne, hpred⟩ := hB
  choose f hf1 hf2 using hpred
  set F : String → String := fun v => if h : v ∈ C then f v h else v with hF
  have hFC : ∀ v ∈ C, F v ∈ C := by
    intro v hv
    simp only [hF, dif_pos hv]
    exact hf1 v hv
  have hFE : ∀ v ∈ C, (F v, v) ∈ E := by
    intro v hv
    simp only [hF, dif_pos hv]
    exact hf2 v hv
  have hiter : ∀ (k : Nat), ∀ v ∈ C, F^[k] v ∈ C := by
    intro k
    induction k with
    | zero => intro v hv; simpa using hv
    | succ k ih =>
      intro v hv
      rw [Function.iterate_succ_apply]
      exact ih (F v) (hFC v hv)
  have hchain : ∀ (m : Nat) (y : String), y ∈ C →
      ChainE E (F^[m + 1] y) (midList F y m) y := by
    intro m
    induction m with
    | zero =>
      intro y hy
      show ChainE E (F^[1] y) [] y
      show (F^[1] y, y) ∈ E
      rw [Function.iterate_one]
      exact hFE y hy
    | succ m ih =>
      intro y hy
      show ChainE E (F^[m + 2] y) (F^[m + 1] y :: midList F y m) y
      refine ⟨?_, ih y hy⟩
      have h1 : F^[m + 1] y ∈ C := hiter (m + 1) y hy
      have h2 : F^[m + 2] y = F (F^[m + 1] y) := Function.iterate_succ_apply' F (m + 1) y
      rw [h2]
      exact hFE _ h1
  have hmid : ∀ (m : Nat) (y : String), y ∈ C → ∀ x ∈ midList F y m, x ∈ C := by
    intro m
    induction m with
    | zero => intro y _ x hx; cases hx
    | succ m ih =>
      intro y hy x hx
      rcases List.mem_cons.mp hx with h' | h'
      · subst h'
        exact hiter (m + 1) y hy
      · exact ih y hy x h'
  obtain ⟨c0, hc0⟩ : ∃ c, c ∈ C := by
    cases C with
    | nil => exact absurd rfl hne
    | cons a l => exact ⟨a, List.mem_cons_self _ _⟩
  have key : ∀ (i j : Nat), i < j → F^[i] c0 = F^[j] c0 →
      ∃ y p, y ∈ C ∧ (∀ x ∈ p, x ∈ C) ∧ ChainE E y p y := by
    intro i j hij heq
    have hyC : F^[i] c0 ∈ C := hiter i c0 hc0
    have hji : (j - i - 1) + 1 = j - i := by omega
    have heq2 : F^[(j - i - 1) + 1] (F^[i] c0) = F^[i] c0 := by
      rw [hji, ← Function.iterate_add_apply]
      have hsum : j - i + i = j := by omega
      rw [hsum]
      exact heq.symm
    have hch := hchain (j - i - 1) (F^[i] c0) hyC
    rw [heq2] at hch
    exact ⟨F^[i] c0, midList F (F^[i] c0) (j - i - 1), hyC,
      hmid (j - i - 1) (F^[i] c0) hyC, hch⟩
  have hcard : C.toFinset.card < (Finset.range (C.toFinset.card + 1)).card := by
    simp
  have hmaps : ∀ a ∈ Finset.range (C.toFinset.card + 1), F^[a] c0 ∈ C.toFinset := by
    intro a _
    rw [List.mem_toFinset]
    exact hiter a c0 hc0
  obtain ⟨i, _, j, _, hij, heq⟩ :=
    Finset.exists_ne_map_eq_of_card_lt_of_maps_to hcard hmaps
  rcases Nat.lt_or_ge i j with hlt | hge
  · exact key i j hlt heq
  · have hlt' : j < i := Nat.lt_of_le_of_ne hge (fun he => hij he.symm)
    exact key j i hlt' heq.symm

theorem hasCycle_leftover_ne {g : WorkflowGraph} (h : HasCycle g) : leftover g ≠ [] := by
  obtain ⟨C, hsub, hB⟩ := hasCycle_blocked h
  obtain ⟨c, hc⟩ : ∃ c, c ∈ C := by
    cases C with
    | nil => exact absurd rfl hB.1
    | cons a l => exact ⟨a, List.mem_cons_self _ _⟩
  have havoid := kahnF_blocked_avoid g.edges (nodeIds g).length (nodeIds g) C hsub hB c hc
  have hperm := kahnF_perm g.edges (nodeIds g).length (nodeIds g)
  have hmem : c ∈ (kahnF g.edges (nodeIds g).length (nodeIds g)).1
      ++ (kahnF g.edges (nodeIds g).length (nodeIds g)).2 :=
    hperm.mem_iff.mpr (hsub c hc)
  rcases List.mem_append.mp hmem with h' | h'
  · exact absurd h' havoid
  · intro hnil
    unfold leftover at hnil
    rw [hnil] at h'
    cases h'

theorem leftover_sub {g : WorkflowGraph} : ∀ x ∈ leftover g, x ∈ nodeIds g := by
  intro x hx
  have hperm := kahnF_perm g.edges (nodeIds g).length (nodeIds g)
  exact hperm.subset (List.mem_append_right _ hx)

theorem leftover_hasCycle {g : WorkflowGraph} (h : leftover g ≠ []) : HasCycle g := by
  have hstuck : pick g.edges (leftover g) = none :=
    kahnF_rem_stuck g.edges (nodeIds g).length (nodeIds g) le_rfl h
  have hB := stuck_blocked hstuck h
  obtain ⟨y, p, hy, hp, hch⟩ := blocked_hasCycle hB
  exact ⟨y, p, leftover_sub y hy, fun x hx => leftover_sub x (hp x hx), hch⟩

end Engine

/-! ## validate: inversion and the ordering claims -/

namespace Engine

theorem validate_ok_edges {g : WorkflowGraph} (h : validate g = .ok ()) :
    ∀ e ∈ g.edges, e.1 ∈ nodeIds g ∧ e.2 ∈ nodeIds g := by
  intro e he
  unfold validate at h
  cases hfind : g.edges.find? (fun e => !(decide (e.1 ∈ nodeIds g ∧ e.2 ∈ nodeIds g))) with
  | some e' =>
    rw [hfind] at h
    exact absurd h (by simp)
  | none =>
    have h2 := List.find?_eq_none.mp hfind e he
    simpa using h2

theorem validate_ok_leftover {g : WorkflowGraph} (h : validate g = .ok ()) :
    leftover g = [] := by
  unfold validate at h
  cases hfind : g.edges.find? (fun e => !(decide (e.1 ∈ nodeIds g ∧ e.2 ∈ nodeIds g))) with
  | some e' =>
    rw [hfind] at h
    exact absurd h (by simp)
  | none =>
    rw [hfind] at h
    cases hl : leftover g with
    | nil => rfl
    | cons v t =>
      rw [hl] at h
      exact absurd h (by simp)

theorem validate_ok_orphan {g : WorkflowGraph} (h : validate g = .ok ()) :
    ∀ n ∈ g.nodes, n.type ≠ .trigger → ∃ e ∈ g.edges, e.2 = n.id := by
  intro n hn hnt
  unfold validate at h
  cases hfind : g.edges.find? (fun e => !(decide (e.1 ∈ nodeIds g ∧ e.2 ∈ nodeIds g))) with
  | some e' =>
    rw [hfind] at h
    exact absurd h (by simp)
  | none =>
    rw [hfind] at h
    cases hl : leftover g with
    | cons v t =>
      rw [hl] at h
      exact absurd h (by simp)
    | nil =>
      rw [hl] at h
      cases ho : g.nodes.find? (fun n =>
          !(decide (n.type = .trigger)) && !(g.edges.any (fun e => decide (e.2 = n.id)))) with
      | some n' =>
        rw [ho] at h
        exact absurd h (by simp)
      | none =>
        have h2 := List.find?_eq_none.mp ho n hn
        simp only [Bool.and_eq_true, Bool.not_eq_eq_eq_not, Bool.not_true,
          decide_eq_false_iff_not, not_and, not_not] at h2
        rcases Decidable.em (n.type = NodeType.trigger) with ht | ht
        · exact absurd ht hnt
        · have h3 : g.edges.any (fun e => decide (e.2 = n.id)) = true := by
            cases hb : g.edges.any (fun e => decide (e.2 = n.id)) with
            | true => rfl
            | false =>
              exact absurd (h2 (by simpa using ht)) (by simp [hb])
          rw [List.any_eq_true] at h3
          obtain ⟨e, he, hpe⟩ := h3
          exact ⟨e, he, of_decide_eq_true hpe⟩

theorem validate_ok_config {g : WorkflowGraph} (h : validate g = .ok ()) :
    ∀ n ∈ g.nodes, requiredOk n = none := by
  intro n hn
  unfold validate at h
  cases hfind : g.edges.find? (fun e => !(decide (e.1 ∈ nodeIds g ∧ e.2 ∈ nodeIds g))) with
  | some e' =>
    rw [hfind] at h
    exact absurd h (by simp)
  | none =>
    rw [hfind] at h
    cases hl : leftover g with
    | cons v t =>
      rw [hl] at h
      exact absurd h (by simp)
    | nil =>
      rw [hl] at h
      cases ho : g.nodes.find? (fun n =>
          !(decide (n.type = .trigger)) && !(g.edges.any (fun e => decide (e.2 = n.id)))) with
      | some n' =>
        rw [ho] at h
        exact absurd h (by simp)
      | none =>
        rw [ho] at h
        cases hc : (g.nodes.filterMap (fun n => (requiredOk n).map (fun f => (n.id, f)))).head? with
        | some p =>
          obtain ⟨i, f⟩ := p
          rw [hc] at h
          exact absurd h (by simp)
        | none =>
          have hnil : g.nodes.filterMap (fun n => (requiredOk n).map (fun f => (n.id, f))) = [] :=
            List.head?_eq_none_iff.mp hc
          have h2 := List.filterMap_eq_nil_iff.mp hnil n hn
          exact Option.map_eq_none'.mp h2

theorem order_perm {g : WorkflowGraph} (hval : validate g = .ok ()) :
    (order g).Perm (nodeIds g) := by
  have hperm := kahnF_perm g.edges (nodeIds g).length (nodeIds g)
  have hl : leftover g = [] := validate_ok_leftover hval
  unfold leftover at hl
  rw [hl] at hperm
  simpa using hperm

theorem order_precedes {g : WorkflowGraph} (hnd : (nodeIds g).Nodup) {u v : String}
    (hedge : (u, v) ∈ g.edges) (hu : u ∈ order g) (hv : v ∈ order g) :
    Precedes (order g) u v :=
  kahnF_precedes g.edges (nodeIds g).length (nodeIds g) hnd u v hedge hu hv

theorem order_nodup {g : WorkflowGraph} (hnd : (nodeIds g).Nodup) : (order g).Nodup :=
  kahnF_out_nodup g.edges (nodeIds g).length (nodeIds g) hnd

end Engine

/-- C3 counterexample: the claim asserts `CycleDetected` for *every*
graph containing a cycle, but the spec also fixes the check order with
edge-endpoint existence first; `gCyc` contains the cycle `A -> B -> A`
yet also an edge to the missing id `C`, so `validate` reports the
edge-reference error of check (a), not `CycleDetected`. -/
theorem claim_C3_counterexample :
    HasCycle gCyc ∧ ∀ e, validate gCyc ≠ .error (.cycleDetected e) := by
  constructor
  · refine ⟨"A", ["B"], by decide, by decide, ?_⟩
    show ("A", "B") ∈ gCyc.edges ∧ ("B", "A") ∈ gCyc.edges
    exact ⟨by decide, by decide⟩
  · intro e h
    have hval : validate gCyc = .error (.edgeRefMissing ("A", "C")) := by rfl
    rw [hval] at h
    simp at h

/-- C3 (amended): `validate` decides acyclicity and connectivity with the
checks applied in order (a) edge-endpoint existence, (b) acyclicity, (c)
orphan detection, (d) per-type config schema; for every graph *whose
edges all reference existing node ids* and which contains a cycle it
returns `cycleDetected`, and for every acyclic graph satisfying (a), (c)
and (d) it succeeds.  (`validate` is a pure Lean function, so freedom
from side effects holds by construction.) -/
theorem claim_C3 :
    ∀ g : WorkflowGraph,
      ((∀ e ∈ g.edges, e.1 ∈ nodeIds g ∧ e.2 ∈ nodeIds g) → HasCycle g →
        ∃ e, validate g = .error (.cycleDetected e))
    ∧ ((∀ e ∈ g.edges, e.1 ∈ nodeIds g ∧ e.2 ∈ nodeIds g) → ¬HasCycle g →
        (∀ n ∈ g.nodes, n.type ≠ .trigger → ∃ e ∈ g.edges, e.2 = n.id) →
        (∀ n ∈ g.nodes, requiredOk n = none) →
        validate g = .ok ())
    ∧ ((∃ e ∈ g.edges, e.1 ∉ nodeIds g ∨ e.2 ∉ nodeIds g) →
        ∃ e, validate g = .error (.edgeRefMissing e))
    ∧ ((∀ e ∈ g.edges, e.1 ∈ nodeIds g ∧ e.2 ∈ nodeIds g) → ¬HasCycle g →
        (∃ n ∈ g.nodes, n.type ≠ .trigger ∧ ∀ e ∈ g.edges, e.2 ≠ n.id) →
        ∃ i, validate g = .error (.orphanNode i))
    ∧ ((∀ e ∈ g.edges, e.1 ∈ nodeIds g ∧ e.2 ∈ nodeIds g) → ¬HasCycle g →
        (∀ n ∈ g.nodes, n.type ≠ .trigger → ∃ e ∈ g.edges, e.2 = n.id) →
        (∃ n ∈ g.nodes, requiredOk n ≠ none) →
        ∃ i f, validate g = .error (.invalidNodeConfig i f)) := by
  intro g
  have hfind_none : (∀ e ∈ g.edges, e.1 ∈ nodeIds g ∧ e.2 ∈ nodeIds g) →
      g.edges.find? (fun e => !(decide (e.1 ∈ nodeIds g ∧ e.2 ∈ nodeIds g))) = none := by
    intro hwf
    rw [List.find?_eq_none]
    intro e he
    simp [hwf e he]
  refine ⟨?_, ?_, ?_, ?_, ?_⟩
  · intro hwf hcyc
    have hne := hasCycle_leftover_ne hcyc
    unfold validate
    rw [hfind_none hwf]
    cases hl : leftover g with
    | nil => exact absurd hl hne
    | cons v t => exact ⟨_, rfl⟩
  · intro hwf hacyc horph hcfg
    have hl : leftover g = [] := by
      cases hl : leftover g with
      | nil => rfl
      | cons v t => exact absurd (leftover_hasCycle (by rw [hl]; exact List.cons_ne_nil v t)) hacyc
    have horph' : g.nodes.find? (fun n =>
        !(decide (n.type = .trigger)) && !(g.edges.any (fun e => decide (e.2 = n.id)))) = none := by
      rw [List.find?_eq_none]
      intro n hn
      rcases Decidable.em (n.type = NodeType.trigger) with ht | ht
      · simp [ht]
      · obtain ⟨e, he, h2⟩ := horph n hn ht
        have : g.edges.any (fun e => decide (e.2 = n.id)) = true :=
          List.any_eq_true.mpr ⟨e, he, by simp [h2]⟩
        simp [this]
    have hcfg' : g.nodes.filterMap (fun n => (requiredOk n).map (fun f => (n.id, f))) = [] := by
      rw [List.filterMap_eq_nil_iff]
      intro n hn
      rw [hcfg n hn]
      rfl
    unfold validate
    rw [hfind_none hwf, hl, horph', hcfg']
    rfl
  · intro hbad
    obtain ⟨e0, he0, hb⟩ := hbad
    cases hfind : g.edges.find? (fun e => !(decide (e.1 ∈ nodeIds g ∧ e.2 ∈ nodeIds g))) with
    | some e' =>
      refine ⟨e', ?_⟩
      unfold validate
      rw [hfind]
    | none =>
      have h2 := List.find?_eq_none.mp hfind e0 he0
      have h3 : e0.1 ∈ nodeIds g ∧ e0.2 ∈ nodeIds g := by simpa using h2
      rcases hb with hb | hb
      · exact absurd h3.1 hb
      · exact absurd h3.2 hb
  · intro hwf hacyc horph
    obtain ⟨n0, hn0, hnt, hnoinc⟩ := horph
    have hl : leftover g = [] := by
      cases hl : leftover g with
      | nil => rfl
      | cons v t => exact absurd (leftover_hasCycle (by rw [hl]; exact List.cons_ne_nil v t)) hacyc
    cases ho : g.nodes.find? (fun n =>
        !(decide (n.type = .trigger)) && !(g.edges.any (fun e => decide (e.2 = n.id)))) with
    | some n' =>
      refine ⟨n'.id, ?_⟩
      unfold validate
      rw [hfind_none hwf, hl, ho]
    | none =>
      have h2 := List.find?_eq_none.mp ho n0 hn0
      simp only [Bool.and_eq_true, Bool.not_eq_eq_eq_not, Bool.not_true,
        decide_eq_false_iff_not, not_and, not_not] at h2
      have hany : g.edges.any (fun e => decide (e.2 = n0.id)) = false := by
        cases hb : g.edges.any (fun e => decide (e.2 = n0.id)) with
        | false => rfl
        | true =>
          rw [List.any_eq_true] at hb
          obtain ⟨e, he, hpe⟩ := hb
          exact absurd (of_decide_eq_true hpe) (hnoinc e he)
      exact absurd (h2 (by simpa using hnt)) (by simp [hany])
  · intro hwf hacyc horph hcfg
    obtain ⟨n0, hn0, hne⟩ := hcfg
    have hl : leftover g = [] := by
      cases hl : leftover g with
      | nil => rfl
      | cons v t => exact absurd (leftover_hasCycle (by rw [hl]; exact List.cons_ne_nil v t)) hacyc
    have horph' : g.nodes.find? (fun n =>
        !(decide (n.type = .trigger)) && !(g.edges.any (fun e => decide (e.2 = n.id)))) = none := by
      rw [List.find?_eq_none]
      intro n hn
      rcases Decidable.em (n.type = NodeType.trigger) with ht | ht
      · simp [ht]
      · obtain ⟨e, he, h2⟩ := horph n hn ht
        have : g.edges.any (fun e => decide (e.2 = n.id)) = true :=
          List.any_eq_true.mpr ⟨e, he, by simp [h2]⟩
        simp [this]
    cases hc : (g.nodes.filterMap (fun n => (requiredOk n).map (fun f => (n.id, f)))).head? with
    | some p =>
      obtain ⟨i, f⟩ := p
      refine ⟨i, f, ?_⟩
      unfold validate
      rw [hfind_none hwf, hl, horph', hc]
    | none =>
      have hnil := List.head?_eq_none_iff.mp hc
      have h2 := List.filterMap_eq_nil_iff.mp hnil n0 hn0
      exact absurd (Option.map_eq_none'.mp h2) hne

/-- C3 witness: the section-8 example graph satisfies check (a), is
acyclic and connected with well-formed configs, and `validate` accepts
it. -/
theorem claim_C3_witness :
    (∀ e ∈ gMain.edges, e.1 ∈ nodeIds gMain ∧ e.2 ∈ nodeIds gMain)
  ∧ validate gMain = .ok () :=
  ⟨by decide,
   (claim_C3 gMain).2.1 (by decide)
     (fun hc => hasCycle_leftover_ne hc (by rfl))
     (by decide) (by decide)⟩

/-- C4: the Execution Planner's ordering.  For every validated graph with
unique node ids, `order` returns a permutation of the node ids (every
node exactly once), respects every edge (no node precedes a node it
depends on), is literally Kahn's algorithm with the
lexicographically-smallest-id tie-break, and — being a pure function — is
deterministic: two calls on the same graph give identical sequences. -/
theorem claim_C4 :
    ∀ g : WorkflowGraph, (nodeIds g).Nodup → validate g = .ok () →
      (order g).Perm (nodeIds g)
    ∧ (∀ u v, (u, v) ∈ g.edges → u ∈ order g → v ∈ order g → Precedes (order g) u v)
    ∧ order g = (kahnF g.edges (nodeIds g).length (nodeIds g)).1
    ∧ order g = order g := by
  intro g hnd hval
  exact ⟨order_perm hval, fun u v he hu hv => order_precedes hnd he hu hv, rfl, rfl⟩

/-- C4 witness on the section-8 example graph. -/
theorem claim_C4_witness :
    (nodeIds gMain).Nodup ∧ validate gMain = .ok ()
  ∧ (order gMain).Perm (nodeIds gMain) :=
  ⟨by decide, by rfl, (claim_C4 gMain (by decide) (by rfl)).1⟩

/-! ## Executor steps: frame and branch lemmas -/

namespace Engine

theorem upd_self {α : Type} (f : String → α) (k : String) (v : α) : upd f k v k = v := by
  unfold upd
  rw [if_pos rfl]

theorem upd_ne {α : Type} (f : String → α) (k : String) (v : α) {x : String}
    (h : x ≠ k) : upd f k v x = f x := by
  unfold upd
  rw [if_neg h]

theorem placeStep_frame (ctx : Ctx) (n : Node) (req : OrderReq)
    (res : Except Unit String) {x : String} (hx : x ≠ n.id) :
    (placeStep ctx n req res).ctx.values x = ctx.values x
    ∧ (placeStep ctx n req res).ctx.branchAlive x = ctx.branchAlive x
    ∧ (placeStep ctx n req res).ctx.results x = ctx.results x := by
  cases res <;> exact ⟨by simp [placeStep, StepRes.ctx, upd, hx],
    by simp [placeStep, StepRes.ctx], by simp [placeStep, StepRes.ctx, upd, hx]⟩

theorem placeStep_calls (ctx : Ctx) (n : Node) (req : OrderReq)
    (res : Except Unit String) :
    (placeStep ctx n req res).ctx.calls = ctx.calls ++ [(n.id, req)] := by
  cases res <;> rfl

theorem placeStep_writes (ctx : Ctx) (n : Node) (req : OrderReq)
    (res : Except Unit String) :
    ∃ o, (placeStep ctx n req res).ctx.results n.id = some o := by
  cases res <;> exact ⟨_, upd_self _ _ _⟩

theorem placeStep_ok_inv {ctx : Ctx} {n : Node} {req : OrderReq}
    {res : Except Unit String} {ctx' : Ctx}
    (h : placeStep ctx n req res = .ok ctx') :
    ∃ oid, ctx'.results n.id = some (.produced (.str oid)) := by
  cases res with
  | ok oid =>
    injection h with h
    subst h
    exact ⟨oid, upd_self _ _ _⟩
  | error e => exact StepRes.noConfusion h

theorem placeStep_fail_inv {ctx : Ctx} {n : Node} {req : OrderReq}
    {res : Except Unit String} {ctx' : Ctx} {msg : String}
    (h : placeStep ctx n req res = .fail ctx' msg) :
    msg = n.id ++ ": OrderPlacementError"
    ∧ ctx'.results n.id = some (.failed .orderRejected) := by
  cases res with
  | ok oid => exact StepRes.noConfusion h
  | error e =>
    injection h with h hmsg
    subst h
    exact ⟨hmsg.symm, upd_self _ _ _⟩

theorem execNode_frame (col : Collab) (runId : String) (now : ℚ) (g : WorkflowGraph)
    (ctx : Ctx) (n : Node) {x : String} (hx : x ≠ n.id) :
    (execNode col runId now g ctx n).ctx.values x = ctx.values x
    ∧ (execNode col runId now g ctx n).ctx.branchAlive x = ctx.branchAlive x
    ∧ (execNode col runId now g ctx n).ctx.results x = ctx.results x := by
  unfold execNode
  by_cases hdead : ((upstreamIds g n).any fun u => !ctx.branchAlive u) = true
  · rw [if_pos hdead]
    exact ⟨rfl, upd_ne _ _ _ hx, upd_ne _ _ _ hx⟩
  · rw [if_neg hdead]
    repeat' split
    all_goals
      refine ⟨?_, ?_, ?_⟩ <;>
        first
          | exact (placeStep_frame _ _ _ _ hx).1
          | exact (placeStep_frame _ _ _ _ hx).2.1
          | exact (placeStep_frame _ _ _ _ hx).2.2
          | (repeat' split) <;> simp [StepRes.ctx, upd, hx, ite_apply]

theorem execNode_calls (col : Collab) (runId : String) (now : ℚ) (g : WorkflowGraph)
    (ctx : Ctx) (n : Node) :
    (execNode col runId now g ctx n).ctx.calls = ctx.calls
    ∨ ∃ req, (execNode col runId now g ctx n).ctx.calls = ctx.calls ++ [(n.id, req)] := by
  unfold execNode
  by_cases hdead : ((upstreamIds g n).any fun u => !ctx.branchAlive u) = true
  · rw [if_pos hdead]
    exact Or.inl rfl
  · rw [if_neg hdead]
    repeat' split
    all_goals first
      | exact Or.inl rfl
      | exact Or.inr ⟨_, placeStep_calls _ _ _ _⟩

theorem execNode_countCalls_ne (col : Collab) (runId : String) (now : ℚ)
    (g : WorkflowGraph) (ctx : Ctx) (n : Node) {x : String} (hx : x ≠ n.id) :
    countCalls (execNode col runId now g ctx n).ctx x = countCalls ctx x := by
  rcases execNode_calls col runId now g ctx n with h | ⟨req, h⟩
  · unfold countCalls
    rw [h]
  · unfold countCalls
    rw [h, List.filter_append]
    have hnil : List.filter (fun c => decide (c.1 = x)) [(n.id, req)] = [] := by
      simp [Ne.symm hx]
    rw [hnil, List.append_nil]

theorem execNode_writes_result (col : Collab) (runId : String) (now : ℚ)
    (g : WorkflowGraph) (ctx : Ctx) (n : Node) :
    ∃ o, (execNode col runId now g ctx n).ctx.results n.id = some o := by
  unfold execNode
  by_cases hdead : ((upstreamIds g n).any fun u => !ctx.branchAlive u) = true
  · rw [if_pos hdead]
    exact ⟨_, upd_self _ _ _⟩
  · rw [if_neg hdead]
    repeat' split
    all_goals first
      | exact placeStep_writes _ _ _ _
      | exact ⟨_, upd_self _ _ _⟩

theorem execNode_ok_result {col : Collab} {runId : String} {now : ℚ}
    {g : WorkflowGraph} {ctx : Ctx} {n : Node} {ctx' : Ctx}
    (hstep : execNode col runId now g ctx n = .ok ctx') :
    ctx'.results n.id = some .skipped ∨ ∃ v, ctx'.results n.id = some (.produced v) := by
  unfold execNode at hstep
  by_cases hdead : ((upstreamIds g n).any fun u => !ctx.branchAlive u) = true
  · rw [if_pos hdead] at hstep
    injection hstep with h
    subst h
    exact Or.inl (upd_self _ _ _)
  · rw [if_neg hdead] at hstep
    repeat' split at hstep
    all_goals try exact StepRes.noConfusion hstep
    all_goals try
      (injection hstep with h
       subst h
       first
         | exact Or.inl (upd_self _ _ _)
         | exact Or.inr ⟨_, upd_self _ _ _⟩)
    all_goals
      (obtain ⟨oid, ho⟩ := placeStep_ok_inv hstep
       exact Or.inr ⟨_, ho⟩)

theorem execNode_logic_false {col : Collab} {runId : String} {now : ℚ}
    {g : WorkflowGraph} {ctx : Ctx} {n : Node} {ctx' : Ctx}
    (hstep : execNode col runId now g ctx n = .ok ctx')
    (hres : ctx'.results n.id = some (.produced (.bool false))) :
    ctx'.branchAlive n.id = false := by
  unfold execNode at hstep
  by_cases hdead : ((upstreamIds g n).any fun u => !ctx.branchAlive u) = true
  · rw [if_pos hdead] at hstep
    injection hstep with h
    subst h
    simp only [upd_self] at hres
    simp at hres
  · rw [if_neg hdead] at hstep
    repeat' split at hstep
    all_goals try exact StepRes.noConfusion hstep
    all_goals try
      (injection hstep with h
       subst h
       simp only [upd_self] at hres
       simp at hres
       done)
    all_goals try
      (injection hstep with h
       subst h
       simp only [upd_self] at hres
       simp at hres
       simp [hres, upd_self])
    all_goals
      (obtain ⟨oid, ho⟩ := placeStep_ok_inv hstep
       rw [ho] at hres
       simp at hres)

theorem execNode_fail_dataUnavailable {col : Collab} {runId : String} {now : ℚ}
    {g : WorkflowGraph} {ctx : Ctx} {n : Node} {ctx' : Ctx} {msg : String}
    (hstep : execNode col runId now g ctx n = .fail ctx' msg)
    (hres : ctx'.results n.id = some (.failed .dataUnavailable)) :
    msg = n.id ++ ": DataUnavailable" := by
  unfold execNode at hstep
  by_cases hdead : ((upstreamIds g n).any fun u => !ctx.branchAlive u) = true
  · rw [if_pos hdead] at hstep
    exact StepRes.noConfusion hstep
  · rw [if_neg hdead] at hstep
    repeat' split at hstep
    all_goals try exact StepRes.noConfusion hstep
    all_goals try
      (injection hstep with h hmsg
       subst h
       simp only [upd_self] at hres
       simp at hres
       done)
    all_goals try
      (injection hstep with h hmsg
       subst h
       exact hmsg.symm)
    all_goals
      (obtain ⟨hmsg, ho⟩ := placeStep_fail_inv hstep
       rw [ho] at hres
       simp at hres)

end Engine

/-! ## Run-level lemmas -/

namespace Engine

theorem execNode_dead (col : Collab) (runId : String) (now : ℚ) (g : WorkflowGraph)
    (ctx : Ctx) (n : Node)
    (hdead : ((upstreamIds g n).any fun u => !ctx.branchAlive u) = true) :
    execNode col runId now g ctx n = .ok { ctx with
      results := upd ctx.results n.id (some .skipped)
      branchAlive := upd ctx.branchAlive n.id false } := by
  unfold execNode
  rw [if_pos hdead]

theorem execNode_action_false (col : Collab) (runId : String) (now : ℚ)
    (g : WorkflowGraph) (ctx : Ctx) (n : Node)
    (hn : n.type = .action)
    (halive : ((upstreamIds g n).any fun u => !ctx.branchAlive u) = false)
    (hval : (upstreamIds g n).head?.bind ctx.values = some (.bool false)) :
    execNode col runId now g ctx n = .ok { ctx with
      results := upd ctx.results n.id (some .skipped)
      branchAlive := upd ctx.branchAlive n.id false } := by
  unfold execNode
  rw [if_neg (by rw [halive]; exact Bool.false_ne_true), hn, hval]

theorem isNumVal_getNum {n : Node} {k : String}
    (h : isNumVal (lookupCfg n.config k) = true) : ∃ q, getNumCfg n k = some q := by
  unfold getNumCfg
  cases hl : lookupCfg n.config k with
  | none => rw [hl] at h; simp [isNumVal] at h
  | some cv =>
    cases cv with
    | str s => rw [hl] at h; simp [isNumVal] at h
    | num q => exact ⟨q, rfl⟩

theorem isStrVal_getStr {n : Node} {k : String}
    (h : isStrVal (lookupCfg n.config k) = true) : ∃ s, getStrCfg n k = some s := by
  unfold getStrCfg
  cases hl : lookupCfg n.config k with
  | none => rw [hl] at h; simp [isStrVal] at h
  | some cv =>
    cases cv with
    | num q => rw [hl] at h; simp [isStrVal] at h
    | str s => exact ⟨s, rfl⟩

theorem action_config_parse {n : Node} (hn : n.type = .action)
    (hok : requiredOk n = none) :
    ∃ a v k, getStrCfg n "actionType" = some a ∧ getNumCfg n "volume" = some v
      ∧ getStrCfg n "orderKind" = some k := by
  unfold requiredOk at hok
  rw [hn] at hok
  dsimp only at hok
  cases hl : lookupCfg n.config "actionType" with
  | none => rw [hl] at hok; exact Option.noConfusion hok
  | some cv =>
    cases cv with
    | num q => rw [hl] at hok; exact Option.noConfusion hok
    | str a =>
      rw [hl] at hok
      dsimp only at hok
      by_cases hab : a = "buy" ∨ a = "sell"
      · rw [if_pos hab] at hok
        by_cases hv : (!isNumVal (lookupCfg n.config "volume")) = true
        · rw [if_pos hv] at hok
          exact Option.noConfusion hok
        · rw [if_neg hv] at hok
          by_cases hk : (!isStrVal (lookupCfg n.config "orderKind")) = true
          · rw [if_pos hk] at hok
            exact Option.noConfusion hok
          · have hvn : isNumVal (lookupCfg n.config "volume") = true := by
              cases hb : isNumVal (lookupCfg n.config "volume") with
              | true => rfl
              | false => rw [hb] at hv; simp at hv
            have hkn : isStrVal (lookupCfg n.config "orderKind") = true := by
              cases hb : isStrVal (lookupCfg n.config "orderKind") with
              | true => rfl
              | false => rw [hb] at hk; simp at hk
            obtain ⟨v, hv2⟩ := isNumVal_getNum hvn
            obtain ⟨k, hk2⟩ := isStrVal_getStr hkn
            exact ⟨a, v, k, by unfold getStrCfg; rw [hl], hv2, hk2⟩
      · rw [if_neg hab] at hok
        exact Option.noConfusion hok

theorem topoSuffix_tail {g : WorkflowGraph} {n : Node} {rest : List Node}
    (h : TopoSuffix g (n :: rest)) : TopoSuffix g rest := by
  intro l₁ v l₂ hsplit u hu
  exact h (n :: l₁) v l₂ (by rw [hsplit]; rfl) u hu

theorem runNodes_frame (col : Collab) (runId : String) (now : ℚ) (g : WorkflowGraph) :
    ∀ (L : List Node) (ctx : Ctx) (x : String), (∀ n ∈ L, x ≠ n.id) →
      (runNodes col runId now g L ctx).ctx.values x = ctx.values x
      ∧ (runNodes col runId now g L ctx).ctx.branchAlive x = ctx.branchAlive x
      ∧ (runNodes col runId now g L ctx).ctx.results x = ctx.results x
      ∧ countCalls (runNodes col runId now g L ctx).ctx x = countCalls ctx x := by
  intro L
  induction L with
  | nil => intro ctx x _; exact ⟨rfl, rfl, rfl, rfl⟩
  | cons n rest ih =>
    intro ctx x h
    have hxn : x ≠ n.id := h n (List.mem_cons_self _ _)
    have hstep := execNode_frame col runId now g ctx n hxn
    have hcount := execNode_countCalls_ne col runId now g ctx n hxn
    cases he : execNode col runId now g ctx n with
    | ok ctx' =>
      rw [he] at hstep hcount
      have ihre := ih ctx' x (fun m hm => h m (List.mem_cons_of_mem _ hm))
      simp only [runNodes, he]
      exact ⟨ihre.1.trans hstep.1, ihre.2.1.trans hstep.2.1,
        ihre.2.2.1.trans hstep.2.2, ihre.2.2.2.trans hcount⟩
    | fail ctx' msg =>
      rw [he] at hstep hcount
      simp only [runNodes, he]
      exact ⟨hstep.1, hstep.2.1, hstep.2.2, hcount⟩

theorem run_success_master (col : Collab) (runId : String) (now : ℚ) (g : WorkflowGraph) :
    ∀ (L : List Node) (ctx : Ctx), (L.map Node.id).Nodup →
      (runNodes col runId now g L ctx).status = .success →
      ∀ n ∈ L, ∃ o, (runNodes col runId now g L ctx).ctx.results n.id = some o := by
  intro L
  induction L with
  | nil => intro ctx _ _ n hn; cases hn
  | cons m rest ih =>
    intro ctx hnd hsucc n hn
    cases he : execNode col runId now g ctx m with
    | ok ctx' =>
      have hnd' : (rest.map Node.id).Nodup := by
        rw [List.map_cons] at hnd
        exact hnd.of_cons
      have hmnotin : m.id ∉ rest.map Node.id := by
        rw [List.map_cons] at hnd
        exact (List.nodup_cons.mp hnd).1
      simp only [runNodes, he] at hsucc ⊢
      rcases List.mem_cons.mp hn with hnm | hnrest
      · subst hnm
        obtain ⟨o, ho⟩ := execNode_writes_result col runId now g ctx n
        rw [he] at ho
        have hfr := (runNodes_frame col runId now g rest ctx' n.id
          (fun p hp => fun heq => hmnotin (by rw [heq]; exact List.mem_map_of_mem _ hp))).2.2.1
        exact ⟨o, hfr.trans ho⟩
      · exact ih ctx' hnd' hsucc n hnrest
    | fail ctx' msg =>
      simp only [runNodes, he] at hsucc
      exact absurd hsucc (by simp)

end Engine

namespace Engine

theorem precedes_cons_head_mem {l : List String} {a v : String}
    (hnd : (a :: l).Nodup) (h : Precedes (a :: l) a v) : v ∈ l := by
  obtain ⟨i, j, hi, hj, hij, hgi, hgj⟩ := h
  have hinj := List.nodup_iff_injective_get.mp hnd
  have h0 : (0 : Nat) < (a :: l).length := Nat.succ_pos _
  have he : (⟨i, hi⟩ : Fin (a :: l).length) = ⟨0, h0⟩ := hinj (by rw [hgi]; rfl)
  have hi0 : i = 0 := congrArg Fin.val he
  subst hi0
  cases j with
  | zero => omega
  | succ j' =>
    rw [List.get_cons_succ] at hgj
    exact hgj ▸ List.get_mem l j' (Nat.lt_of_succ_lt_succ hj)

theorem precedes_of_cons_ne {l : List String} {a u v : String}
    (h : Precedes (a :: l) u v) (hu : u ≠ a) : Precedes l u v := by
  obtain ⟨i, j, hi, hj, hij, hgi, hgj⟩ := h
  cases i with
  | zero => exact absurd hgi.symm hu
  | succ i' =>
    cases j with
    | zero => omega
    | succ j' =>
      rw [List.get_cons_succ] at hgi hgj
      exact ⟨i', j', Nat.lt_of_succ_lt_succ hi, Nat.lt_of_succ_lt_succ hj,
        Nat.lt_of_succ_lt_succ hij, hgi, hgj⟩

theorem execNode_fail_result (col : Collab) (runId : String) (now : ℚ)
    (g : WorkflowGraph) (ctx : Ctx) (n : Node) {ctx' : Ctx} {msg : String}
    (hstep : execNode col runId now g ctx n = .fail ctx' msg) :
    ∃ e, ctx'.results n.id = some (.failed e) := by
  unfold execNode at hstep
  by_cases hdead : ((upstreamIds g n).any fun u => !ctx.branchAlive u) = true
  · rw [if_pos hdead] at hstep
    exact StepRes.noConfusion hstep
  · rw [if_neg hdead] at hstep
    repeat' split at hstep
    all_goals try exact StepRes.noConfusion hstep
    all_goals try
      (injection hstep with h hmsg
       subst h
       exact ⟨_, upd_self _ _ _⟩)
    all_goals
      (obtain ⟨hmsg, ho⟩ := placeStep_fail_inv hstep
       exact ⟨_, ho⟩)

theorem run_fail_master (col : Collab) (runId : String) (now : ℚ) (g : WorkflowGraph) :
    ∀ (L : List Node) (ctx : Ctx),
      (L.map Node.id).Nodup →
      (∀ p ∈ L, ctx.results p.id = none) →
      ∀ d ∈ L,
        (runNodes col runId now g L ctx).ctx.results d.id = some (.failed .dataUnavailable) →
        (runNodes col runId now g L ctx).status = .failed
        ∧ (runNodes col runId now g L ctx).errorMessage = some (d.id ++ ": DataUnavailable")
        ∧ ∀ m, Precedes (L.map Node.id) d.id m →
            (runNodes col runId now g L ctx).ctx.results m = none := by
  intro L
  induction L with
  | nil => intro ctx _ _ d hd; cases hd
  | cons nd rest ih =>
    intro ctx hnd hfree d hd hres
    have hmap : (nd :: rest).map Node.id = nd.id :: rest.map Node.id := List.map_cons _ _ _
    have hnin : nd.id ∉ rest.map Node.id := by
      rw [hmap] at hnd
      exact (List.nodup_cons.mp hnd).1
    have hnd' : (rest.map Node.id).Nodup := by
      rw [hmap] at hnd
      exact (List.nodup_cons.mp hnd).2
    cases he : execNode col runId now g ctx nd with
    | ok ctx' =>
      have hrun : runNodes col runId now g (nd :: rest) ctx = runNodes col runId now g rest ctx' := by
        simp only [runNodes, he]
      rw [hrun] at hres ⊢
      rcases List.mem_cons.mp hd with hdn | hdr
      · subst hdn
        have hfr := (runNodes_frame col runId now g rest ctx' d.id
          (fun p hp heq => hnin (by rw [heq]; exact List.mem_map_of_mem _ hp))).2.2.1
        rw [hfr] at hres
        have hok := execNode_ok_result he
        rcases hok with hsk | ⟨v, hpr⟩
        · rw [hsk] at hres
          simp at hres
        · rw [hpr] at hres
          simp at hres
      · have hfree' : ∀ p ∈ rest, ctx'.results p.id = none := by
          intro p hp
          have hne : p.id ≠ nd.id := fun heq => hnin (heq ▸ List.mem_map_of_mem _ hp)
          have hfr := (execNode_frame col runId now g ctx nd hne).2.2
          rw [he] at hfr
          exact hfr.trans (hfree p (List.mem_cons_of_mem _ hp))
        obtain ⟨hstat, hmsg, habs⟩ := ih ctx' hnd' hfree' d hdr hres
        refine ⟨hstat, hmsg, ?_⟩
        intro m hm
        have hdne : d.id ≠ nd.id := fun heq => hnin (by rw [← heq]; exact List.mem_map_of_mem _ hdr)
        rw [hmap] at hm
        exact habs m (precedes_of_cons_ne hm hdne)
    | fail ctx' msg =>
      have hrun : runNodes col runId now g (nd :: rest) ctx = ⟨ctx', .failed, some msg⟩ := by
        simp only [runNodes, he]
      rw [hrun] at hres ⊢
      rcases List.mem_cons.mp hd with hdn | hdr
      · subst hdn
        refine ⟨rfl, ?_, ?_⟩
        · exact congrArg some (execNode_fail_dataUnavailable he hres)
        · intro m hm
          rw [hmap] at hm
          have hm' : m ∈ rest.map Node.id := by
            rw [hmap] at hnd
            exact precedes_cons_head_mem hnd hm
          have hne : m ≠ d.id := fun heq => hnin (heq ▸ hm')
          obtain ⟨p, hp, hpm⟩ := List.mem_map.mp hm'
          have hfr := (execNode_frame col runId now g ctx d hne).2.2
          rw [he] at hfr
          have hfr2 : ctx'.results m = ctx.results m := hfr
          show ctx'.results m = none
          rw [hfr2, ← hpm]
          exact hfree p (List.mem_cons_of_mem _ hp)
      · have hdne : d.id ≠ nd.id := fun heq => hnin (heq ▸ List.mem_map_of_mem _ hdr)
        have hfr := (execNode_frame col runId now g ctx nd hdne).2.2
        rw [he] at hfr
        have hfr2 : ctx'.results d.id = ctx.results d.id := hfr
        have hres' : ctx'.results d.id = some (.failed .dataUnavailable) := hres
        rw [hfr2, hfree d (List.mem_cons_of_mem _ hdr)] at hres'
        exact Option.noConfusion hres'

end Engine

namespace Engine

theorem run_master (col : Collab) (runId : String) (now : ℚ) (g : WorkflowGraph)
    (hcfg : ∀ p ∈ g.nodes, requiredOk p = none) :
    ∀ (L : List Node) (ctx : Ctx),
      (∀ p ∈ L, p ∈ g.nodes) →
      (L.map Node.id).Nodup →
      TopoSuffix g L →
      (∀ p ∈ L, ctx.results p.id = none ∧ countCalls ctx p.id = 0) →
      ∀ n ∈ L,
        (n.type = .logic →
          (runNodes col runId now g L ctx).ctx.results n.id = some (.produced (.bool false)) →
          (runNodes col runId now g L ctx).ctx.branchAlive n.id = false)
      ∧ (∀ o, (runNodes col runId now g L ctx).ctx.results n.id = some o →
          (∃ u ∈ upstreamIds g n, (runNodes col runId now g L ctx).ctx.branchAlive u = false) →
          o = .skipped)
      ∧ (n.type = .action → ∀ o, (runNodes col runId now g L ctx).ctx.results n.id = some o →
          ((∃ u ∈ upstreamIds g n, (runNodes col runId now g L ctx).ctx.branchAlive u = false)
            ∨ (upstreamIds g n).head?.bind (runNodes col runId now g L ctx).ctx.values
                = some (.bool false)) →
          o = .skipped ∧ countCalls (runNodes col runId now g L ctx).ctx n.id = 0)
      ∧ (n.type = .action → (runNodes col runId now g L ctx).ctx.results n.id ≠ none →
          (∀ u ∈ upstreamIds g n, (runNodes col runId now g L ctx).ctx.branchAlive u = true) →
          (upstreamIds g n).head?.bind (runNodes col runId now g L ctx).ctx.values
            = some (.bool true) →
          countCalls (runNodes col runId now g L ctx).ctx n.id = 1) := by
  intro L
  induction L with
  | nil => intro ctx _ _ _ _ n hn; cases hn
  | cons nd rest ih =>
    intro ctx hsub hnd htopo hfree n hn
    have hmap : (nd :: rest).map Node.id = nd.id :: rest.map Node.id := List.map_cons _ _ _
    have hnin : nd.id ∉ rest.map Node.id := by
      rw [hmap] at hnd
      exact (List.nodup_cons.mp hnd).1
    have hnd' : (rest.map Node.id).Nodup := by
      rw [hmap] at hnd
      exact (List.nodup_cons.mp hnd).2
    have htopo' := topoSuffix_tail htopo
    rcases List.mem_cons.mp hn with hnh | hnr
    · -- the node under consideration is the head of the remaining list
      subst hnh
      have hupsL : ∀ u ∈ upstreamIds g n, u ∉ (n :: rest).map Node.id :=
        fun u hu => htopo [] n rest rfl u hu
      have hb : ∀ u ∈ upstreamIds g n,
          (runNodes col runId now g (n :: rest) ctx).ctx.branchAlive u = ctx.branchAlive u
          ∧ (runNodes col runId now g (n :: rest) ctx).ctx.values u = ctx.values u := by
        intro u hu
        have hfr := runNodes_frame col runId now g (n :: rest) ctx u
          (fun p hp heq => hupsL u hu (by rw [heq]; exact List.mem_map_of_mem _ hp))
        exact ⟨hfr.2.1, hfr.1⟩
      cases he : execNode col runId now g ctx n with
      | ok ctx' =>
        have hrun : runNodes col runId now g (n :: rest) ctx
            = runNodes col runId now g rest ctx' := by
          simp only [runNodes, he]
        have hfr := runNodes_frame col runId now g rest ctx' n.id
          (fun p hp heq => hnin (by rw [heq]; exact List.mem_map_of_mem _ hp))
        have hresn : (runNodes col runId now g (n :: rest) ctx).ctx.results n.id
            = ctx'.results n.id := by
          rw [hrun]
          exact hfr.2.2.1
        have haliven : (runNodes col runId now g (n :: rest) ctx).ctx.branchAlive n.id
            = ctx'.branchAlive n.id := by
          rw [hrun]
          exact hfr.2.1
        have hcalln : countCalls (runNodes col runId now g (n :: rest) ctx).ctx n.id
            = countCalls ctx' n.id := by
          rw [hrun]
          exact hfr.2.2.2
        refine ⟨?_, ?_, ?_, ?_⟩
        · intro _ hresf
          rw [hresn] at hresf
          rw [haliven]
          exact execNode_logic_false he hresf
        · intro o hro hdead
          obtain ⟨u, hu, hufalse⟩ := hdead
          have hcur : ctx.branchAlive u = false := by
            rw [← (hb u hu).1]
            exact hufalse
          have hany : ((upstreamIds g n).any fun u => !ctx.branchAlive u) = true :=
            List.any_eq_true.mpr ⟨u, hu, by rw [hcur]; rfl⟩
          have hstep := execNode_dead col runId now g ctx n hany
          rw [hstep] at he
          injection he with he2
          have hsk : ctx'.results n.id = some .skipped := by
            rw [← he2]
            exact upd_self _ _ _
          rw [hresn, hsk] at hro
          injection hro with hro2
          exact hro2.symm
        · intro hact o hro hcase
          by_cases hany : ((upstreamIds g n).any fun u => !ctx.branchAlive u) = true
          · have hstep := execNode_dead col runId now g ctx n hany
            rw [hstep] at he
            injection he with he2
            have hsk : ctx'.results n.id = some .skipped := by
              rw [← he2]
              exact upd_self _ _ _
            rw [hresn, hsk] at hro
            injection hro with hro2
            refine ⟨hro2.symm, ?_⟩
            rw [hcalln, ← he2]
            exact (hfree n hn).2
          · have hanyf : ((upstreamIds g n).any fun u => !ctx.branchAlive u) = false :=
              Bool.eq_false_iff.mpr hany
            rcases hcase with ⟨u, hu, hufalse⟩ | hfalse
            · have hcur : ctx.branchAlive u = false := by
                rw [← (hb u hu).1]
                exact hufalse
              exact absurd (List.any_eq_true.mpr ⟨u, hu, by rw [hcur]; rfl⟩) hany
            · have hcurval : (upstreamIds g n).head?.bind ctx.values
                  = some (.bool false) := by
                cases hh : (upstreamIds g n).head? with
                | none =>
                  rw [hh] at hfalse
                  simp at hfalse
                | some u0 =>
                  have hu0 : u0 ∈ upstreamIds g n := List.mem_of_mem_head? hh
                  rw [hh] at hfalse
                  simp only [Option.some_bind] at hfalse ⊢
                  rw [← (hb u0 hu0).2]
                  exact hfalse
              have hstep := execNode_action_false col runId now g ctx n hact hanyf hcurval
              rw [hstep] at he
              injection he with he2
              have hsk : ctx'.results n.id = some .skipped := by
                rw [← he2]
                exact upd_self _ _ _
              rw [hresn, hsk] at hro
              injection hro with hro2
              refine ⟨hro2.symm, ?_⟩
              rw [hcalln, ← he2]
              exact (hfree n hn).2
        · intro hact _ hall htrue
          have hanyf : ((upstreamIds g n).any fun u => !ctx.branchAlive u) = false := by
            rw [List.any_eq_false]
            intro u hu
            have : ctx.branchAlive u = true := by
              rw [← (hb u hu).1]
              exact hall u hu
            simp [this]
          have hcurval : (upstreamIds g n).head?.bind ctx.values = some (.bool true) := by
            cases hh : (upstreamIds g n).head? with
            | none =>
              rw [hh] at htrue
              simp at htrue
            | some u0 =>
              have hu0 : u0 ∈ upstreamIds g n := List.mem_of_mem_head? hh
              rw [hh] at htrue
              simp only [Option.some_bind] at htrue ⊢
              rw [← (hb u0 hu0).2]
              exact htrue
          obtain ⟨a, v, k, ha, hv, hk⟩ := action_config_parse hact (hcfg n (hsub n hn))
          have hstep : execNode col runId now g ctx n
              = placeStep ctx n ⟨a, v, k⟩
                  (col.placeOrder (runId ++ ":" ++ n.id) ⟨a, v, k⟩) := by
            unfold execNode
            rw [if_neg (by rw [hanyf]; exact Bool.false_ne_true), hact, hcurval, ha, hv, hk]
          have hps : placeStep ctx n ⟨a, v, k⟩
              (col.placeOrder (runId ++ ":" ++ n.id) ⟨a, v, k⟩) = .ok ctx' := by
            rw [← hstep]
            exact he
          have hcallseq := placeStep_calls ctx n ⟨a, v, k⟩
            (col.placeOrder (runId ++ ":" ++ n.id) ⟨a, v, k⟩)
          rw [hps] at hcallseq
          have hcallseq2 : ctx'.calls = ctx.calls ++ [(n.id, ⟨a, v, k⟩)] := hcallseq
          rw [hcalln]
          unfold countCalls
          rw [hcallseq2, List.filter_append, List.length_append]
          have h0 : (ctx.calls.filter (fun c => decide (c.1 = n.id))).length = 0 :=
            (hfree n hn).2
          rw [h0]
          simp
      | fail ctx' msg =>
        have hrun : runNodes col runId now g (n :: rest) ctx = ⟨ctx', .failed, some msg⟩ := by
          simp only [runNodes, he]
        have hresn : (runNodes col runId now g (n :: rest) ctx).ctx.results n.id
            = ctx'.results n.id := by
          rw [hrun]
        obtain ⟨e0, hfail⟩ := execNode_fail_result col runId now g ctx n he
        refine ⟨?_, ?_, ?_, ?_⟩
        · intro _ hresf
          rw [hresn, hfail] at hresf
          simp at hresf
        · intro o hro hdead
          obtain ⟨u, hu, hufalse⟩ := hdead
          have hcur : ctx.branchAlive u = false := by
            rw [← (hb u hu).1]
            exact hufalse
          have hany : ((upstreamIds g n).any fun u => !ctx.branchAlive u) = true :=
            List.any_eq_true.mpr ⟨u, hu, by rw [hcur]; rfl⟩
          have hstep := execNode_dead col runId now g ctx n hany
          rw [hstep] at he
          exact StepRes.noConfusion he
        · intro hact o hro hcase
          by_cases hany : ((upstreamIds g n).any fun u => !ctx.branchAlive u) = true
          · have hstep := execNode_dead col runId now g ctx n hany
            rw [hstep] at he
            exact StepRes.noConfusion he
          · have hanyf : ((upstreamIds g n).any fun u => !ctx.branchAlive u) = false :=
              Bool.eq_false_iff.mpr hany
            rcases hcase with ⟨u, hu, hufalse⟩ | hfalse
            · have hcur : ctx.branchAlive u = false := by
                rw [← (hb u hu).1]
                exact hufalse
              exact absurd (List.any_eq_true.mpr ⟨u, hu, by rw [hcur]; rfl⟩) hany
            · have hcurval : (upstreamIds g n).head?.bind ctx.values
                  = some (.bool false) := by
                cases hh : (upstreamIds g n).head? with
                | none =>
                  rw [hh] at hfalse
                  simp at hfalse
                | some u0 =>
                  have hu0 : u0 ∈ upstreamIds g n := List.mem_of_mem_head? hh
                  rw [hh] at hfalse
                  simp only [Option.some_bind] at hfalse ⊢
                  rw [← (hb u0 hu0).2]
                  exact hfalse
              have hstep := execNode_action_false col runId now g ctx n hact hanyf hcurval
              rw [hstep] at he
              exact StepRes.noConfusion he
        · intro hact _ hall htrue
          have hanyf : ((upstreamIds g n).any fun u => !ctx.branchAlive u) = false := by
            rw [List.any_eq_false]
            intro u hu
            have : ctx.branchAlive u = true := by
              rw [← (hb u hu).1]
              exact hall u hu
            simp [this]
          have hcurval : (upstreamIds g n).head?.bind ctx.values = some (.bool true) := by
            cases hh : (upstreamIds g n).head? with
            | none =>
              rw [hh] at htrue
              simp at htrue
            | some u0 =>
              have hu0 : u0 ∈ upstreamIds g n := List.mem_of_mem_head? hh
              rw [hh] at htrue
              simp only [Option.some_bind] at htrue ⊢
              rw [← (hb u0 hu0).2]
              exact htrue
          obtain ⟨a, v, k, ha, hv, hk⟩ := action_config_parse hact (hcfg n (hsub n hn))
          have hstep : execNode col runId now g ctx n
              = placeStep ctx n ⟨a, v, k⟩
                  (col.placeOrder (runId ++ ":" ++ n.id) ⟨a, v, k⟩) := by
            unfold execNode
            rw [if_neg (by rw [hanyf]; exact Bool.false_ne_true), hact, hcurval, ha, hv, hk]
          have hps : placeStep ctx n ⟨a, v, k⟩
              (col.placeOrder (runId ++ ":" ++ n.id) ⟨a, v, k⟩) = .fail ctx' msg := by
            rw [← hstep]
            exact he
          have hcallseq := placeStep_calls ctx n ⟨a, v, k⟩
            (col.placeOrder (runId ++ ":" ++ n.id) ⟨a, v, k⟩)
          rw [hps] at hcallseq
          have hcallseq2 : ctx'.calls = ctx.calls ++ [(n.id, ⟨a, v, k⟩)] := hcallseq
          have hcalln : countCalls (runNodes col runId now g (n :: rest) ctx).ctx n.id
              = countCalls ctx' n.id := by
            rw [hrun]
          rw [hcalln]
          unfold countCalls
          rw [hcallseq2, List.filter_append, List.length_append]
          have h0 : (ctx.calls.filter (fun c => decide (c.1 = n.id))).length = 0 :=
            (hfree n hn).2
          rw [h0]
          simp
    · -- the node under consideration lies further down the list
      cases he : execNode col runId now g ctx nd with
      | ok ctx' =>
        have hrun : runNodes col runId now g (nd :: rest) ctx
            = runNodes col runId now g rest ctx' := by
          simp only [runNodes, he]
        have hfree' : ∀ p ∈ rest, ctx'.results p.id = none ∧ countCalls ctx' p.id = 0 := by
          intro p hp
          have hne : p.id ≠ nd.id := fun heq => hnin (heq ▸ List.mem_map_of_mem _ hp)
          have hfr := (execNode_frame col runId now g ctx nd hne).2.2
          rw [he] at hfr
          have hfr2 : ctx'.results p.id = ctx.results p.id := hfr
          have hc := execNode_countCalls_ne col runId now g ctx nd hne
          rw [he] at hc
          have hc2 : countCalls ctx' p.id = countCalls ctx p.id := hc
          exact ⟨hfr2.trans (hfree p (List.mem_cons_of_mem _ hp)).1,
            hc2.trans (hfree p (List.mem_cons_of_mem _ hp)).2⟩
        rw [hrun]
        exact ih ctx' (fun p hp => hsub p (List.mem_cons_of_mem _ hp)) hnd' htopo' hfree' n hnr
      | fail ctx' msg =>
        have hrun : runNodes col runId now g (nd :: rest) ctx = ⟨ctx', .failed, some msg⟩ := by
          simp only [runNodes, he]
        have hne : n.id ≠ nd.id := fun heq => hnin (heq ▸ List.mem_map_of_mem _ hnr)
        have hfr := (execNode_frame col runId now g ctx nd hne).2.2
        rw [he] at hfr
        have hfr2 : ctx'.results n.id = ctx.results n.id := hfr
        have hresn : (runNodes col runId now g (nd :: rest) ctx).ctx.results n.id = none := by
          rw [hrun]
          exact hfr2.trans (hfree n hn).1
        refine ⟨?_, ?_, ?_, ?_⟩
        · intro _ hresf
          rw [hresn] at hresf
          exact Option.noConfusion hresf
        · intro o hro _
          rw [hresn] at hro
          exact Option.noConfusion hro
        · intro _ o hro _
          rw [hresn] at hro
          exact Option.noConfusion hro
        · intro _ hne2 _ _
          exact absurd hresn hne2

end Engine

namespace Engine

theorem nodeId_inj {g : WorkflowGraph} (hnd : (nodeIds g).Nodup) {m n : Node}
    (hm : m ∈ g.nodes) (hn : n ∈ g.nodes) (h : m.id = n.id) : m = n :=
  List.inj_on_of_nodup_map hnd hm hn h

theorem upstream_edge {g : WorkflowGraph} {n : Node} {u : String}
    (hu : u ∈ upstreamIds g n) : (u, n.id) ∈ g.edges := by
  unfold upstreamIds at hu
  obtain ⟨e, he, heq⟩ := List.mem_map.mp hu
  have hf := List.mem_filter.mp he
  have h2 : e.2 = n.id := of_decide_eq_true hf.2
  have : e = (u, n.id) := by
    obtain ⟨e1, e2⟩ := e
    simp only at heq h2
    rw [heq, h2]
  rw [← this]
  exact hf.1

theorem mem_planned {g : WorkflowGraph} (hnd : (nodeIds g).Nodup)
    (hval : validate g = .ok ()) {n : Node} (hn : n ∈ g.nodes) : n ∈ planned g := by
  have hid : n.id ∈ order g := (order_perm hval).mem_iff.mpr (List.mem_map_of_mem _ hn)
  unfold planned
  rw [List.mem_filterMap]
  refine ⟨n.id, hid, ?_⟩
  cases hf : g.nodes.find? (fun m => m.id = n.id) with
  | none =>
    have := List.find?_eq_none.mp hf n hn
    simp at this
  | some m =>
    have hm := List.mem_of_find?_eq_some hf
    have hmid : m.id = n.id := by
      have h2 := List.find?_some hf
      simpa using h2
    rw [nodeId_inj hnd hm hn hmid]

theorem planned_sub {g : WorkflowGraph} : ∀ p ∈ planned g, p ∈ g.nodes := by
  intro p hp
  unfold planned at hp
  obtain ⟨i, _, hf⟩ := List.mem_filterMap.mp hp
  exact List.mem_of_find?_eq_some hf

theorem planned_map_id_aux (g : WorkflowGraph) :
    ∀ (l : List String),
      (∀ i ∈ l, ∃ m, g.nodes.find? (fun n => n.id = i) = some m) →
      (l.filterMap (fun i => g.nodes.find? (fun n => n.id = i))).map Node.id = l := by
  intro l
  induction l with
  | nil => intro _; simp
  | cons i t ih =>
    intro hc
    obtain ⟨m, hm⟩ := hc i (List.mem_cons_self _ _)
    have hmid : m.id = i := by
      have h2 := List.find?_some hm
      simpa using h2
    simp only [List.filterMap_cons, hm, List.map_cons]
    rw [hmid, ih (fun j hj => hc j (List.mem_cons_of_mem _ hj))]

theorem planned_map_id {g : WorkflowGraph} (hval : validate g = .ok ()) :
    (planned g).map Node.id = order g := by
  unfold planned
  apply planned_map_id_aux
  intro i hi
  have hmem : i ∈ nodeIds g := (order_perm hval).subset hi
  obtain ⟨m, hm, hmi⟩ := List.mem_map.mp hmem
  cases hf : g.nodes.find? (fun n => n.id = i) with
  | some m' => exact ⟨m', rfl⟩
  | none =>
    have h2 := List.find?_eq_none.mp hf m hm
    rw [hmi] at h2
    simp at h2

end Engine

namespace Engine

theorem planned_topoSuffix {g : WorkflowGraph} (hnd : (nodeIds g).Nodup)
    (hval : validate g = .ok ()) : TopoSuffix g (planned g) := by
  intro l₁ n l₂ hsplit u hu hmem
  have hedge : (u, n.id) ∈ g.edges := upstream_edge hu
  have hord : order g = l₁.map Node.id ++ n.id :: l₂.map Node.id := by
    rw [← planned_map_id hval, hsplit]
    simp
  have hndord : (order g).Nodup := order_nodup hnd
  have hu_ord : u ∈ order g := by
    rw [hord]
    rcases List.mem_cons.mp hmem with he | hm
    · rw [he]
      exact List.mem_append_right _ (List.mem_cons_self _ _)
    · exact List.mem_append_right _ (List.mem_cons_of_mem _ hm)
  have hn_ord : n.id ∈ order g := by
    rw [hord]
    exact List.mem_append_right _ (List.mem_cons_self _ _)
  have hprec : Precedes (order g) u n.id := order_precedes hnd hedge hu_ord hn_ord
  rcases List.mem_cons.mp hmem with he | hm
  · rw [he] at hprec
    exact precedes_irrefl hndord hprec
  · have h2 : Precedes (order g) n.id u := by
      rw [hord]
      exact split_mem_precedes _ hm
    exact precedes_asymm hndord hprec h2

theorem lookup_filterMap_not_mem (res : String → Option Outcome) :
    ∀ (l : List String) (i : String), i ∉ l →
      (l.filterMap (fun j => (res j).map (fun o => (j, o)))).lookup i = none := by
  intro l
  induction l with
  | nil => intro i _; rfl
  | cons a t ih =>
    intro i hi
    have hia : i ≠ a := fun he => hi (he ▸ List.mem_cons_self _ _)
    have hit : i ∉ t := fun h => hi (List.mem_cons_of_mem _ h)
    cases hr : res a with
    | none =>
      simp only [List.filterMap_cons, hr, Option.map_none']
      exact ih i hit
    | some o =>
      simp only [List.filterMap_cons, hr, Option.map_some']
      rw [List.lookup_cons, beq_eq_false_iff_ne.mpr hia]
      exact ih i hit

theorem lookup_filterMap_mem (res : String → Option Outcome) :
    ∀ (l : List String), l.Nodup → ∀ i ∈ l,
      (l.filterMap (fun j => (res j).map (fun o => (j, o)))).lookup i = res i := by
  intro l
  induction l with
  | nil => intro _ i hi; cases hi
  | cons a t ih =>
    intro hnd i hi
    have hndt : t.Nodup := (List.nodup_cons.mp hnd).2
    have hanotin : a ∉ t := (List.nodup_cons.mp hnd).1
    rcases List.mem_cons.mp hi with hia | hit
    · subst hia
      cases hr : res i with
      | none =>
        simp only [List.filterMap_cons, hr, Option.map_none']
        rw [lookup_filterMap_not_mem res t i hanotin]
      | some o =>
        simp only [List.filterMap_cons, hr, Option.map_some']
        rw [List.lookup_cons]
        simp [hr]
    · have hia : i ≠ a := fun he => hanotin (he ▸ hit)
      cases hr : res a with
      | none =>
        simp only [List.filterMap_cons, hr, Option.map_none']
        exact ih hndt i hit
      | some o =>
        simp only [List.filterMap_cons, hr, Option.map_some']
        rw [List.lookup_cons, beq_eq_false_iff_ne.mpr hia]
        exact ih hndt i hit

theorem finalize_lookup (runId : String) (g : WorkflowGraph) (out : RunOut)
    (hnd : (nodeIds g).Nodup) :
    ∀ i ∈ nodeIds g,
      (finalizeRun runId g out).nodeResults.lookup i = out.ctx.results i := by
  intro i hi
  unfold finalizeRun
  exact lookup_filterMap_mem out.ctx.results (nodeIds g) hnd i hi

end Engine

/-- C2: branch pruning via liveness flags, for every run of a validated
graph with unique node ids.  (i) A Logic node that produced `false` has
its `branchAlive` flag cleared; (ii) every node recorded in the run whose
upstream dependencies include a dead branch is recorded as `Skipped`;
(iii) an Action node whose upstream is dead or whose upstream boolean is
`false` is recorded as `Skipped` and makes no external order call; (iv)
an Action node that was reached with all upstream branches alive and its
upstream boolean `true` calls order placement exactly once. -/
theorem claim_C2 :
    ∀ (col : Collab) (runId : String) (now : ℚ) (g : WorkflowGraph),
      (nodeIds g).Nodup → validate g = .ok () →
      ∀ n ∈ g.nodes,
        (n.type = .logic →
          (runWorkflow col runId now g).ctx.results n.id = some (.produced (.bool false)) →
          (runWorkflow col runId now g).ctx.branchAlive n.id = false)
      ∧ (∀ o, (runWorkflow col runId now g).ctx.results n.id = some o →
          (∃ u ∈ upstreamIds g n, (runWorkflow col runId now g).ctx.branchAlive u = false) →
          o = .skipped)
      ∧ (n.type = .action → ∀ o, (runWorkflow col runId now g).ctx.results n.id = some o →
          ((∃ u ∈ upstreamIds g n, (runWorkflow col runId now g).ctx.branchAlive u = false)
            ∨ (upstreamIds g n).head?.bind (runWorkflow col runId now g).ctx.values
                = some (.bool false)) →
          o = .skipped ∧ countCalls (runWorkflow col runId now g).ctx n.id = 0)
      ∧ (n.type = .action → (runWorkflow col runId now g).ctx.results n.id ≠ none →
          (∀ u ∈ upstreamIds g n, (runWorkflow col runId now g).ctx.branchAlive u = true) →
          (upstreamIds g n).head?.bind (runWorkflow col runId now g).ctx.values
            = some (.bool true) →
          countCalls (runWorkflow col runId now g).ctx n.id = 1) := by
  intro col runId now g hnd hval n hn
  exact run_master col runId now g (validate_ok_config hval) (planned g) initCtx
    planned_sub
    (by rw [planned_map_id hval]; exact order_nodup hnd)
    (planned_topoSuffix hnd hval)
    (fun p _ => ⟨rfl, rfl⟩)
    n (mem_planned hnd hval hn)

/-- C2 witness on the section-8 example graph: with the Data node
yielding 25, the Logic node `lt 30` is `true` and the Action node places
exactly one order. -/
theorem claim_C2_witness :
    validate gMain = .ok ()
  ∧ countCalls (runWorkflow (colOf 25) "r1" 0 gMain).ctx "A" = 1 :=
  ⟨rfl,
   (claim_C2 (colOf 25) "r1" 0 gMain (by decide) rfl nodeA (by decide)).2.2.2
     rfl (by decide) (by decide) (by decide)⟩

/-- C5: failure short-circuit.  For every run of a validated graph in
which a Data node's fetch is recorded as `Failed DataUnavailable`, the
run's terminal status is `Failed`, the error message names the failing
Data node, and every node strictly after it in the planned order is
absent from the results. -/
theorem claim_C5 :
    ∀ (col : Collab) (runId : String) (now : ℚ) (g : WorkflowGraph),
      (nodeIds g).Nodup → validate g = .ok () →
      ∀ d ∈ g.nodes, d.type = .data →
        (runWorkflow col runId now g).ctx.results d.id = some (.failed .dataUnavailable) →
        (runWorkflow col runId now g).status = .failed
        ∧ (runWorkflow col runId now g).errorMessage = some (d.id ++ ": DataUnavailable")
        ∧ ∀ m, Precedes (order g) d.id m →
            (runWorkflow col runId now g).ctx.results m = none := by
  intro col runId now g hnd hval d hd _ hres
  have h := run_fail_master col runId now g (planned g) initCtx
    (by rw [planned_map_id hval]; exact order_nodup hnd)
    (fun p _ => rfl)
    d (mem_planned hnd hval hd) hres
  refine ⟨h.1, h.2.1, ?_⟩
  intro m hm
  exact h.2.2 m (by rw [planned_map_id hval]; exact hm)

/-- C5 witness: the section-8 graph with a failing market-data fetch:
the run fails, the error message names `D`, and the downstream Action
node `A` has no outcome. -/
theorem claim_C5_witness :
    validate gMain = .ok ()
  ∧ (runWorkflow colFail "r1" 0 gMain).status = .failed
  ∧ (runWorkflow colFail "r1" 0 gMain).errorMessage = some ("D" ++ ": DataUnavailable")
  ∧ (runWorkflow colFail "r1" 0 gMain).ctx.results "A" = none :=
  ⟨rfl,
   (claim_C5 colFail "r1" 0 gMain (by decide) rfl nodeD (by decide) rfl (by decide)).1,
   (claim_C5 colFail "r1" 0 gMain (by decide) rfl nodeD (by decide) rfl (by decide)).2.1,
   (claim_C5 colFail "r1" 0 gMain (by decide) rfl nodeD (by decide) rfl (by decide)).2.2 "A"
     ⟨1, 3, by decide, by decide, by decide, rfl, rfl⟩⟩

/-- C7 counterexample: the claim demands a `nodeResults` entry for every
node not skipped due to upstream branch death in *every* terminal run,
but in a `Failed` run the nodes after the failure point were never
executed: on the section-8 graph with a failing Data fetch the run is
terminal (`Failed`), the Action node's upstream branch is not dead
(`branchAlive "L"` is still `true`), yet the persisted map has no entry
for `"A"`. -/
theorem claim_C7_counterexample :
    validate gMain = .ok ()
  ∧ (runWorkflow colFail "r1" 0 gMain).status = .failed
  ∧ (runWorkflow colFail "r1" 0 gMain).ctx.branchAlive "L" = true
  ∧ (runWorkflow colFail "r1" 0 gMain).ctx.branchAlive "A" = true
  ∧ (finalizeRun "r1" gMain (runWorkflow colFail "r1" 0 gMain)).nodeResults.lookup "A" = none :=
  ⟨rfl, rfl, rfl, rfl, rfl⟩

/-- C7 (amended): audit completeness and single-step finalize.  For every
run of a validated graph with unique node ids: a run that ends in
`Success` has a persisted `nodeResults` entry for every node of the
graph; the persisted map is the full snapshot of the final context (the
persisted entry of every node equals the final in-memory outcome — the
record is produced by the single `finalizeRun` step, never partially);
and the persisted status and error message are exactly the run's.  For a
`Failed` run, entries exist exactly up to the failing node (claim C5). -/
theorem claim_C7 :
    ∀ (col : Collab) (runId : String) (now : ℚ) (g : WorkflowGraph),
      (nodeIds g).Nodup → validate g = .ok () →
      ((runWorkflow col runId now g).status = .success →
        ∀ n ∈ g.nodes, ∃ o,
          (finalizeRun runId g (runWorkflow col runId now g)).nodeResults.lookup n.id = some o)
    ∧ (∀ n ∈ g.nodes,
        (finalizeRun runId g (runWorkflow col runId now g)).nodeResults.lookup n.id
          = (runWorkflow col runId now g).ctx.results n.id)
    ∧ (finalizeRun runId g (runWorkflow col runId now g)).status
        = (runWorkflow col runId now g).status
    ∧ (finalizeRun runId g (runWorkflow col runId now g)).errorMessage
        = (runWorkflow col runId now g).errorMessage := by
  intro col runId now g hnd hval
  refine ⟨?_, ?_, rfl, rfl⟩
  · intro hsucc n hn
    obtain ⟨o, ho⟩ := run_success_master col runId now g (planned g) initCtx
      (by rw [planned_map_id hval]; exact order_nodup hnd) hsucc n (mem_planned hnd hval hn)
    refine ⟨o, ?_⟩
    rw [finalize_lookup runId g _ hnd n.id (List.mem_map_of_mem _ hn)]
    exact ho
  · intro n hn
    exact finalize_lookup runId g _ hnd n.id (List.mem_map_of_mem _ hn)

/-- C7 witness on a successful run of the section-8 graph. -/
theorem claim_C7_witness :
    validate gMain = .ok ()
  ∧ (finalizeRun "r1" gMain (runWorkflow (colOf 25) "r1" 0 gMain)).nodeResults.lookup "A"
      = (runWorkflow (colOf 25) "r1" 0 gMain).ctx.results "A" :=
  ⟨rfl, (claim_C7 (colOf 25) "r1" 0 gMain (by decide) rfl).2.1 nodeA (by decide)⟩
